import Mathlib

set_option linter.unusedVariables false
set_option maxRecDepth 8000

/-!
# Verification of the Mimic metadata-driven code-generator scripts

Shallow embedding of the Python generator/validator scripts of the Mimic
repository (`scripts/generate_module_registry.py`, `scripts/validate_modules.py`,
`scripts/generate_properties.py`, `scripts/check_generated.py`), together with
proofs and refutations of the specification claims about them.

Conventions used throughout:

* Python strings are Lean `String`s; where Python string *processing* is
  involved (`split`, `strip`, …) we implement the exact processing step as a
  structurally recursive Lean function so that concrete evaluations reduce in
  the kernel.
* Python dictionaries are association lists in insertion order, with a
  `dictSet` operation implementing Python assignment semantics (replace in
  place, keep position).
* Stateful code (accumulating diagnostics, writing files) is modelled by
  explicit state passing; filesystem contents are an explicit argument.
* Python exceptions are `Except`/`Option` results.
-/

/-! ## Generic list helpers -/

/-- `a` occurs strictly before `b` in `l`. -/
def Before {α : Type} (l : List α) (a b : α) : Prop :=
  ∃ l₁ l₂ l₃, l = l₁ ++ a :: l₂ ++ b :: l₃

/-- Append `x` to `l` unless already present (used both for Python
`dict`-key insertion order and for modelling `list(set(..))`). -/
def addNew {α : Type} [DecidableEq α] (l : List α) (x : α) : List α :=
  if x ∈ l then l else l ++ [x]

/-- Order-keeping deduplication.  Models Python `list(set(xs))`: CPython's
set iteration order is unspecified, only the underlying set of elements is
meaningful; we fix the first-occurrence order. -/
def dedup {α : Type} [DecidableEq α] (l : List α) : List α :=
  l.foldl addNew []

/-- Python `dict` assignment `d[k] = v`: replace the value of an existing
key in place, otherwise append the new binding. -/
def dictSet {α : Type} : List (String × α) → String → α → List (String × α)
  | [], k, v => [(k, v)]
  | (k₀, v₀) :: rest, k, v =>
    if k₀ = k then (k₀, v) :: rest else (k₀, v₀) :: dictSet rest k v

namespace DepGraph

/-! ## Module dependency resolution

Model of `build_dependency_graph` / `resolve_dependencies` in
`scripts/generate_module_registry.py` and of `build_dependency_graph` /
`validate_dependencies` in `scripts/validate_modules.py`, together with the
`graphlib.TopologicalSorter` functionality they rely on.
-/

/-- The dependency-relevant projection of a `module_info.yaml` dictionary:
`m["name"]`, `m.get("dependencies", {}).get("requires", [])` and
`m.get("dependencies", {}).get("provides", [])` (an absent `dependencies`
block or list is identical in observable behaviour to an empty list).
In `validate_modules.py` the same functions run on `(module_dir.name, module)`
pairs; there `name` stands for the directory-entry name. -/
structure DepModule where
  name : String
  requires : List String
  provides : List String
deriving DecidableEq, Repr

/-- A dependency graph as passed to `graphlib.TopologicalSorter`: a Python
dict (association list in insertion order) from module name to the list of
names of the modules it depends on — its *predecessors* in `graphlib`
terminology. -/
abbrev Graph := List (String × List String)

/-- `graph.get(n, [])`: the predecessor list of a node. -/
def predsOf (g : Graph) (n : String) : List String :=
  (g.lookup n).getD []

/-- The keys of the graph dict, in insertion order. -/
def keysOf (g : Graph) : List String :=
  g.map Prod.fst

/-- The `provides_map` lookup: for each module (in list order), for each
occurrence of `cap` in its `provides` list, one occurrence of the module
name is appended to `provides_map[cap]`.  `providersOf ms cap` is the final
value of `provides_map[cap]` (`[]` exactly when `cap` is not a key). -/
def providersOf (ms : List DepModule) (cap : String) : List String :=
  ms.flatMap fun m => (m.provides.filter (· = cap)).map fun _ => m.name

/-- The inner loop of `generate_module_registry.build_dependency_graph`:
for each required capability, every provider other than the module itself.
(The Python code guards with `if req_prop in provides_map`; when the
capability is not a key the provider list is empty, so iterating over
`providersOf` directly has identical behaviour.) -/
def registryEdges (ms : List DepModule) (m : DepModule) : List String :=
  m.requires.flatMap fun req => (providersOf ms req).filter (· ≠ m.name)

/-- `generate_module_registry.build_dependency_graph` (lines 110–141):
`graph[name] = list(set(dependencies))` — self-edges excluded, duplicates
collapsed. -/
def build_dependency_graph_registry (ms : List DepModule) : Graph :=
  ms.foldl (fun g m => dictSet g m.name (dedup (registryEdges ms m))) []

/-- `validate_modules.build_dependency_graph` (lines 738–766):
`dependencies.extend(provides_map[req_prop])` — *no* self-edge exclusion and
*no* duplicate collapsing. -/
def build_dependency_graph_validator (ms : List DepModule) : Graph :=
  ms.foldl (fun g m =>
    dictSet g m.name (m.requires.flatMap fun req => providersOf ms req)) []

/-! ### graphlib.TopologicalSorter

`TopologicalSorter(graph)` iterates the dict items, calling
`add(node, *predecessors)` for each; `add` registers the node first and then
each predecessor (insertion order of `_node2info`), sets the node's
`npredecessors` to the length of its predecessor list, and appends the node
to each predecessor's successor list (once per occurrence).
`static_order()` = `prepare()` + repeated `get_ready()`/`done(*group)`:
Kahn's algorithm with batch processing in insertion order.  `prepare`
raises `CycleError` exactly when the graph has a cycle; the error carries a
genuine cycle of the graph in which each node is an immediate predecessor
of the next and the first and last nodes coincide (that is the documented
contract; *which* cycle CPython picks is an implementation detail of its
internal DFS, modelled here by extraction from the stalled Kahn state,
which agrees with CPython on the inputs used below). -/

/-- `_node2info` insertion order: for each graph item, the key, then its
predecessors, each skipped if already registered. -/
def nodeOrder (g : Graph) : List String :=
  g.foldl (fun acc p => p.2.foldl addNew (addNew acc p.1)) []

/-- Initial `npredecessors` of a node: the length of its predecessor list
(with multiplicity), `0` for pure-successor nodes. -/
def npred0 (g : Graph) (n : String) : Nat :=
  (predsOf g n).length

/-- The successor list of `n`: for each graph item `(k, ps)` in order, one
occurrence of `k` per occurrence of `n` in `ps`. -/
def succsOf (g : Graph) (n : String) : List String :=
  g.flatMap fun p => (p.2.filter (· = n)).map fun _ => p.1

/-- Decrement the counter of `n` in the counts dict; the flag reports
whether the counter just reached zero (CPython: `npredecessors -= 1;
if npredecessors == 0: append`; a counter already at zero goes negative in
Python and never triggers the flag again, matching `v = 1` here). -/
def decrOne : List (String × Nat) → String → List (String × Nat) × Bool
  | [], _ => ([], false)
  | (k, v) :: rest, n =>
    if k = n then ((k, v - 1) :: rest, v = 1)
    else
      let r := decrOne rest n
      ((k, v) :: r.1, r.2)

/-- `done(m)` for a single node `m`: decrement every successor, collecting
the ones whose counter reaches zero (in order) as newly-ready. -/
def processNode (g : Graph) (st : List (String × Nat) × List String)
    (m : String) : List (String × Nat) × List String :=
  (succsOf g m).foldl
    (fun st s =>
      let r := decrOne st.1 s
      (r.1, if r.2 then st.2 ++ [s] else st.2))
    st

/-- `done(*group)`: process a whole ready batch in order. -/
def processBatch (g : Graph) (batch : List String)
    (c : List (String × Nat)) : List (String × Nat) × List String :=
  batch.foldl (processNode g) (c, [])

/-- The `static_order` loop: emit the ready batch, process it, repeat until
no node is ready.  Structured with fuel; `kahnFuel` below always suffices
(proved via the strictly decreasing measure `Σ counters + |ready|`). -/
def kahnRun (g : Graph) : Nat → List (String × Nat) → List String → List String
  | 0, _, _ => []
  | fuel + 1, c, ready =>
    if ready = [] then []
    else
      let st := processBatch g ready c
      ready ++ kahnRun g fuel st.1 st.2

/-- Fuel bound: total predecessor-list length plus node count plus one. -/
def kahnFuel (g : Graph) : Nat :=
  (g.map fun p => p.2.length).sum + (nodeOrder g).length + 1

/-- The initial counter dict (`prepare`). -/
def initialCounts (g : Graph) : List (String × Nat) :=
  (nodeOrder g).map fun n => (n, npred0 g n)

/-- The initial ready list (`prepare`): zero-predecessor nodes in
registration order. -/
def initialReady (g : Graph) : List String :=
  (nodeOrder g).filter fun n => npred0 g n = 0

/-- The full node sequence yielded by `static_order()` when no `CycleError`
is raised. -/
def kahnOrder (g : Graph) : List String :=
  kahnRun g (kahnFuel g) (initialCounts g) (initialReady g)

/-- First predecessor of `n` inside the stalled set. -/
def stepPred (g : Graph) (rem : List String) (n : String) : Option String :=
  (predsOf g n).find? fun p => p ∈ rem

/-- Walk backwards through predecessors inside the stalled set until a node
repeats; the visited segment from the repeated node is a cycle. -/
def cycleWalk (g : Graph) (rem : List String) :
    Nat → List String → String → List String
  | 0, _, _ => []
  | fuel + 1, visited, cur =>
    if cur ∈ visited then visited.dropWhile (· ≠ cur) ++ [cur]
    else
      match stepPred g rem cur with
      | none => []
      | some p => cycleWalk g rem fuel (visited ++ [cur]) p

/-- The cycle reported by the `CycleError`, in the documented orientation:
each node of the list is an immediate predecessor of the next, and the
first and last nodes coincide. -/
def extractCycle (g : Graph) (rem : List String) : List String :=
  match rem with
  | [] => []
  | r :: _ => (cycleWalk g rem (rem.length + 1) [] r).reverse

/-- `list(TopologicalSorter(graph).static_order())`: the topological order,
or the `CycleError` payload if the graph is cyclic. -/
def static_order (g : Graph) : Except (List String) (List String) :=
  let order := kahnOrder g
  if order.length = (nodeOrder g).length then .ok order
  else .error (extractCycle g ((nodeOrder g).filter fun n => n ∉ order))

/-- `generate_module_registry.resolve_dependencies` (lines 143–172):
`None` on a `CycleError`, otherwise the modules reordered by the sorted
names (`module_map` is a Python dict keyed by module name; with distinct
names `find?` returns the same module). -/
def resolve_dependencies (modules : List DepModule) : Option (List DepModule) :=
  if modules.isEmpty then some []
  else
    match static_order (build_dependency_graph_registry modules) with
    | .error _ => none
    | .ok sorted_names =>
      some (sorted_names.filterMap fun n => modules.find? fun m => m.name = n)

/-- Edge relation of a dependency graph: `a` is a registered predecessor of
`b`, i.e. `a` must appear before `b` in any topological order. -/
def edgeRel (g : Graph) (a b : String) : Prop :=
  a ∈ predsOf g b

/-- A graph is acyclic when no node depends transitively on itself. -/
def Acyclic (g : Graph) : Prop :=
  ∀ n, ¬ Relation.TransGen (edgeRel g) n n

end DepGraph

namespace ValidateModules

/-! ## scripts/validate_modules.py — diagnostics and schema validation -/

/-- YAML values as loaded by `yaml.safe_load`.  Floats are modelled as the
decimal literal `m · 10⁻ᵈ` appearing in the YAML file (Python parses it to
a binary64 with the same ordering for the modest literals occurring in
module metadata). -/
inductive YValue where
  | vnull
  | vbool (b : Bool)
  | vint (n : Int)
  | vfloat (m : Int) (d : Nat)
  | vstr (s : String)
  | vlist (l : List YValue)
  | vdict (d : List (String × YValue))
deriving Repr

mutual

/-- Structural equality of YAML values (Python `==` on loaded YAML data). -/
def ybeq : YValue → YValue → Bool
  | .vnull, .vnull => true
  | .vbool a, .vbool b => a = b
  | .vint a, .vint b => a = b
  | .vfloat m d, .vfloat m₂ d₂ => m = m₂ && d = d₂
  | .vstr a, .vstr b => a = b
  | .vlist a, .vlist b => ylbeq a b
  | .vdict a, .vdict b => ydbeq a b
  | _, _ => false

def ylbeq : List YValue → List YValue → Bool
  | [], [] => true
  | a :: as, b :: bs => ybeq a b && ylbeq as bs
  | _, _ => false

def ydbeq : List (String × YValue) → List (String × YValue) → Bool
  | [], [] => true
  | (k, a) :: as, (k₂, b) :: bs => k = k₂ && ybeq a b && ydbeq as bs
  | _, _ => false

end

mutual

theorem ybeq_iff : ∀ a b, ybeq a b = true ↔ a = b
  | .vnull, .vnull => by simp [ybeq]
  | .vbool _, .vbool _ => by simp [ybeq]
  | .vint _, .vint _ => by simp [ybeq]
  | .vfloat _ _, .vfloat _ _ => by simp [ybeq]
  | .vstr _, .vstr _ => by simp [ybeq]
  | .vlist a, .vlist b => by
      simp only [ybeq]
      rw [ylbeq_iff a b]
      constructor
      · intro h; rw [h]
      · intro h; injection h
  | .vdict a, .vdict b => by
      simp only [ybeq]
      rw [ydbeq_iff a b]
      constructor
      · intro h; rw [h]
      · intro h; injection h
  | .vnull, .vbool _ => by simp [ybeq]
  | .vnull, .vint _ => by simp [ybeq]
  | .vnull, .vfloat _ _ => by simp [ybeq]
  | .vnull, .vstr _ => by simp [ybeq]
  | .vnull, .vlist _ => by simp [ybeq]
  | .vnull, .vdict _ => by simp [ybeq]
  | .vbool _, .vnull => by simp [ybeq]
  | .vbool _, .vint _ => by simp [ybeq]
  | .vbool _, .vfloat _ _ => by simp [ybeq]
  | .vbool _, .vstr _ => by simp [ybeq]
  | .vbool _, .vlist _ => by simp [ybeq]
  | .vbool _, .vdict _ => by simp [ybeq]
  | .vint _, .vnull => by simp [ybeq]
  | .vint _, .vbool _ => by simp [ybeq]
  | .vint _, .vfloat _ _ => by simp [ybeq]
  | .vint _, .vstr _ => by simp [ybeq]
  | .vint _, .vlist _ => by simp [ybeq]
  | .vint _, .vdict _ => by simp [ybeq]
  | .vfloat _ _, .vnull => by simp [ybeq]
  | .vfloat _ _, .vbool _ => by simp [ybeq]
  | .vfloat _ _, .vint _ => by simp [ybeq]
  | .vfloat _ _, .vstr _ => by simp [ybeq]
  | .vfloat _ _, .vlist _ => by simp [ybeq]
  | .vfloat _ _, .vdict _ => by simp [ybeq]
  | .vstr _, .vnull => by simp [ybeq]
  | .vstr _, .vbool _ => by simp [ybeq]
  | .vstr _, .vint _ => by simp [ybeq]
  | .vstr _, .vfloat _ _ => by simp [ybeq]
  | .vstr _, .vlist _ => by simp [ybeq]
  | .vstr _, .vdict _ => by simp [ybeq]
  | .vlist _, .vnull => by simp [ybeq]
  | .vlist _, .vbool _ => by simp [ybeq]
  | .vlist _, .vint _ => by simp [ybeq]
  | .vlist _, .vfloat _ _ => by simp [ybeq]
  | .vlist _, .vstr _ => by simp [ybeq]
  | .vlist _, .vdict _ => by simp [ybeq]
  | .vdict _, .vnull => by simp [ybeq]
  | .vdict _, .vbool _ => by simp [ybeq]
  | .vdict _, .vint _ => by simp [ybeq]
  | .vdict _, .vfloat _ _ => by simp [ybeq]
  | .vdict _, .vstr _ => by simp [ybeq]
  | .vdict _, .vlist _ => by simp [ybeq]

theorem ylbeq_iff : ∀ a b, ylbeq a b = true ↔ a = b
  | [], [] => by simp [ylbeq]
  | a :: as, b :: bs => by
      simp only [ylbeq, Bool.and_eq_true]
      rw [ybeq_iff a b, ylbeq_iff as bs]
      simp
  | [], _ :: _ => by simp [ylbeq]
  | _ :: _, [] => by simp [ylbeq]

theorem ydbeq_iff : ∀ a b, ydbeq a b = true ↔ a = b
  | [], [] => by simp [ydbeq]
  | (k, a) :: as, (k₂, b) :: bs => by
      have h₁ := ybeq_iff a b
      have h₂ := ydbeq_iff as bs
      constructor
      · intro h
        simp only [ydbeq, Bool.and_eq_true, decide_eq_true_eq] at h
        rw [h.1.1, h₁.mp h.1.2, h₂.mp h.2]
      · intro h
        cases h
        simp only [ydbeq, Bool.and_eq_true, decide_eq_true_eq]
        exact ⟨⟨by trivial, h₁.mpr rfl⟩, h₂.mpr rfl⟩
  | [], _ :: _ => by simp [ydbeq]
  | _ :: _, [] => by simp [ydbeq]

end

instance : DecidableEq YValue := fun a b =>
  decidable_of_iff (ybeq a b = true) (ybeq_iff a b)

/-- A YAML mapping (Python dict), in insertion order. -/
abbrev YDict := List (String × YValue)

/-- `d.get(k)` / `k in d`. -/
def yget (d : YDict) (k : String) : Option YValue :=
  d.lookup k

/-- `d.get(k, default)`. -/
def ygetD (d : YDict) (k : String) (v : YValue) : YValue :=
  (yget d k).getD v

/-- `isinstance(v, str)`. -/
def isStr : YValue → Bool
  | .vstr _ => true
  | _ => false

/-- `isinstance(v, bool)`. -/
def isBoolPy : YValue → Bool
  | .vbool _ => true
  | _ => false

/-- `isinstance(v, int)` — in Python, `bool` is a subclass of `int`. -/
def isIntPy : YValue → Bool
  | .vint _ => true
  | .vbool _ => true
  | _ => false

/-- `isinstance(v, (int, float))`. -/
def isNumPy : YValue → Bool
  | .vint _ => true
  | .vbool _ => true
  | .vfloat _ _ => true
  | _ => false

/-- `isinstance(v, list)`. -/
def isListPy : YValue → Bool
  | .vlist _ => true
  | _ => false

/-- `isinstance(v, dict)`. -/
def isDictPy : YValue → Bool
  | .vdict _ => true
  | _ => false

/-- Python truthiness (`if v:`). -/
def pyTruthy : YValue → Bool
  | .vnull => false
  | .vbool b => b
  | .vint n => n ≠ 0
  | .vfloat m _ => m ≠ 0
  | .vstr s => s ≠ ""
  | .vlist l => ¬l.isEmpty
  | .vdict d => ¬d.isEmpty

/-- Python `key in v` for the container values that occur here (dict: key
membership; list: element membership; string: substring is never needed for
the inputs these validators see).  Non-container operands would raise
`TypeError` in Python; they are outside every claim considered. -/
def yContains (v : YValue) (k : String) : Bool :=
  match v with
  | .vdict d => (yget d k).isSome
  | .vlist l => l.contains (.vstr k)
  | _ => false

/-- Lookup inside a value known to be a dict (`v[k]` / `v.get(k)`);
`none` on a non-dict, where Python would raise. -/
def pget (v : YValue) (k : String) : Option YValue :=
  match v with
  | .vdict d => d.lookup k
  | _ => none

/-- `v.get(k, default)` on a dict value. -/
def pgetD (v : YValue) (k : String) (dflt : YValue) : YValue :=
  (pget v k).getD dflt

/-- The string content of a field that prior validation stages guarantee to
be a string (`module.get(k, default)` used at `str` type). -/
def ygetStr (d : YDict) (k : String) (dflt : String) : String :=
  match yget d k with
  | some (.vstr s) => s
  | some _ => ""
  | none => dflt

/-- The list content of a field that prior validation stages guarantee to
be a list (`module.get(k, [])` used at `list` type). -/
def ygetList (d : YDict) (k : String) : List YValue :=
  match yget d k with
  | some (.vlist l) => l
  | _ => []

/-- The decimal value of a YAML number, as `(mantissa, decimal exponent)`;
Python `True`/`False` count as `1`/`0`. -/
def numVal : YValue → Option (Int × Nat)
  | .vint n => some (n, 0)
  | .vbool b => some (if b then 1 else 0, 0)
  | .vfloat m d => some (m, d)
  | _ => none

/-- Python `a > b` on two YAML scalars as used by the range check
(numeric comparison; incomparable operands — where Python would raise
`TypeError` — compare `false` and are outside every claim considered). -/
def pyGT (a b : YValue) : Bool :=
  match numVal a, numVal b with
  | some (m₁, d₁), some (m₂, d₂) => m₂ * (10 : Int) ^ d₁ < m₁ * (10 : Int) ^ d₂
  | _, _ => false

/-- `C_IDENTIFIER_PATTERN = ^[a-zA-Z_][a-zA-Z0-9_]*$` (also the ASCII
behaviour of `str.isidentifier`, used by `generate_properties.py`). -/
def isCIdentifier (s : String) : Bool :=
  match s.data with
  | [] => false
  | c :: rest => (c.isAlpha || c = '_') && rest.all fun c => c.isAlphanum || c = '_'

/-- `VERSION_PATTERN = ^\d+\.\d+\.\d+$`. -/
def isVersionString (s : String) : Bool :=
  let parts := s.data.splitOn '.'
  parts.length = 3 && parts.all fun p => ¬p.isEmpty && p.all Char.isDigit

/-- `str.islower` (ASCII): at least one cased character and no uppercase. -/
def pyIsLower (s : String) : Bool :=
  s.data.any Char.isLower && s.data.all fun c => ¬c.isUpper

/-- `c.isalnum() or c == "_"` (ASCII). -/
def isWordChar (c : Char) : Bool :=
  c.isAlphanum || c = '_'

end ValidateModules

namespace ValidateModules

/-! ### Diagnostics (`ValidationError` / `ValidationResults`) -/

/-- The message of each `add_error` / `add_warning` call site in
`validate_modules.py`, with the interpolated data carried structurally
(the Python code builds an f-string at each site; nothing in the claims
depends on the surrounding literal text). -/
inductive VMsg where
  | missingRequiredFields (missing : List String)
  | dependenciesMissingSubfields
  | fieldNotString (field : String)
  | fieldNotList (field : String)
  | fieldItemsNotStrings (field : String)
  | dependenciesNotDict
  | dependenciesFieldNotList (field : String)
  | dependenciesFieldItemsNotStrings (field : String)
  | parametersNotList
  | parameterNotDict (i : Nat)
  | parameterMissingFields (i : Nat) (missing : List String)
  | defaultEnabledNotBool
  | invalidVersion (version : String)
  | nameNotIdentifier (name : String)
  | nameNotLowercase (name : String)
  | nameDirMismatch (name dir : String)
  | registerFunctionMismatch (got expected : String)
  | paramInvalidType (pname ptype : YValue)
  | paramDefaultNotInt (pname : YValue)
  | paramDefaultNotDouble (pname : YValue)
  | paramDefaultNotString (pname : YValue)
  | paramRangeWrongType (pname ptype : YValue)
  | paramRangeNotPair (pname : YValue)
  | paramRangeMinGtMax (pname : YValue)
  | duplicateParameter (pname : YValue)
  | paramNameNotIdentifier (pname : YValue)
  | compilationRequiresNotList
  | invalidCompilationRequirements (invalid : List YValue)
  | sourceFileNotFound (file : String)
  | headerFileNotFound (file : String)
  | noTestFiles
  | unitTestNotFound (file : String)
  | integrationTestNotFound (file : String)
  | scientificTestNotFound (file : String)
  | noDocs
  | physicsDocNotFound (path : String)
  | registerFunctionNotFound (fname : String)
  | requiredPropertyNotFound (prop : String)
  | providedPropertyNotFound (prop : String)
  | modifiesProperty (prop : String)
  | failedToBuildGraph
  | circularDependency (cycle : List String)
  | missingFieldName
  | moduleInfoNotFoundOrInvalid
deriving DecidableEq, Repr

/-- `ValidationError.__init__`. -/
structure ValidationError where
  module_name : String
  severity : String
  exit_code : Nat
  message : VMsg
deriving DecidableEq, Repr

/-- `ValidationResults`: the two accumulated diagnostic lists. -/
structure ValidationResults where
  errors : List ValidationError
  warnings : List ValidationError
deriving DecidableEq, Repr

/-- `ValidationResults()` — a fresh collector. -/
def emptyResults : ValidationResults := ⟨[], []⟩

/-- `ValidationResults.add_error`. -/
def add_error (r : ValidationResults) (module_name : String) (exit_code : Nat)
    (message : VMsg) : ValidationResults :=
  { r with errors := r.errors ++ [⟨module_name, "ERROR", exit_code, message⟩] }

/-- `ValidationResults.add_warning`. -/
def add_warning (r : ValidationResults) (module_name : String)
    (message : VMsg) : ValidationResults :=
  { r with warnings := r.warnings ++ [⟨module_name, "WARNING", 0, message⟩] }

/-- `ValidationResults.has_errors`. -/
def has_errors (r : ValidationResults) : Bool :=
  r.errors.length > 0

/-- `ValidationResults.get_exit_code` (lines 104–108): the exit code of the
*first* recorded error, `0` without errors. -/
def get_exit_code (r : ValidationResults) : Nat :=
  match r.errors with
  | [] => 0
  | e :: _ => e.exit_code

/-- One diagnostic recorded during a validator run, in recording order. -/
inductive DiagEvent where
  | err (module_name : String) (exit_code : Nat) (message : VMsg)
  | warn (module_name : String) (message : VMsg)
deriving DecidableEq, Repr

/-- Record one diagnostic into the collector. -/
def recordEvent (r : ValidationResults) : DiagEvent → ValidationResults
  | .err m c msg => add_error r m c msg
  | .warn m msg => add_warning r m msg

/-- A whole run recorded into a collector: the diagnostics in the order the
checks emit them. -/
def runEvents (r : ValidationResults) (evs : List DiagEvent) : ValidationResults :=
  evs.foldl recordEvent r

/-- Whether a diagnostic event is an ERROR-severity one. -/
def isErrEvent : DiagEvent → Bool
  | .err _ _ _ => true
  | .warn _ _ => false

end ValidateModules

namespace ValidateModules

/-! ### Schema validation (`validate_*` functions of `validate_modules.py`)

Each function mirrors one Python function; all return the `valid` flag and
the updated collector.  The filesystem is an explicit argument: `fs` is the
list of existing paths (repository-root relative), `contents` maps a path to
its text.
-/

/-- A module directory (`pathlib.Path`): its repo-relative path and its
final component (`.name`). -/
structure MDir where
  path : String
  name : String
deriving DecidableEq, Repr

/-- Decimal rendering of a small natural number (Python `str(i)`),
structurally recursive so concrete runs reduce in the kernel. -/
def natDigit : Nat → String
  | 0 => "0" | 1 => "1" | 2 => "2" | 3 => "3" | 4 => "4"
  | 5 => "5" | 6 => "6" | 7 => "7" | 8 => "8" | _ => "9"

def natToStrAux : Nat → Nat → String
  | 0, _ => ""
  | fuel + 1, n =>
    if n < 10 then natDigit n else natToStrAux fuel (n / 10) ++ natDigit (n % 10)

def natToStr (n : Nat) : String :=
  natToStrAux (n + 1) n

/-- The elements of a value known to be a list. -/
def ylistOf : YValue → List YValue
  | .vlist l => l
  | _ => []

/-- The text of a value used as a path fragment or identifier; prior
validation guarantees a string (Python would raise on anything else). -/
def toStrD : YValue → String
  | .vstr s => s
  | _ => ""

/-- `C_IDENTIFIER_PATTERN.match(v)` where `v` should be a string (Python
raises `TypeError` on a non-string; such inputs match no claim here). -/
def isCIdentY : YValue → Bool
  | .vstr s => isCIdentifier s
  | _ => false

/-- `validate_required_fields` (lines 243–279). -/
def validate_required_fields (module : YDict) (module_name : String)
    (results : ValidationResults) : Bool × ValidationResults :=
  let all_required := ["name", "display_name", "description", "version",
    "author", "sources", "headers", "register_function", "dependencies",
    "parameters"]
  let missing := all_required.filter fun f => (yget module f).isNone
  if ¬missing.isEmpty then
    (false, add_error results module_name 1 (.missingRequiredFields missing))
  else
    let deps := ygetD module "dependencies" (.vdict [])
    if ¬yContains deps "requires" || ¬yContains deps "provides" then
      (false, add_error results module_name 1 .dependenciesMissingSubfields)
    else (true, results)

/-- `validate_field_types` (lines 282–364). -/
def validate_field_types (module : YDict) (module_name : String)
    (results : ValidationResults) : Bool × ValidationResults :=
  let st := (["name", "display_name", "description", "version", "author",
      "register_function"]).foldl
    (fun (st : Bool × ValidationResults) field =>
      match yget module field with
      | some v =>
        if ¬isStr v then
          (false, add_error st.2 module_name 1 (.fieldNotString field))
        else st
      | none => st)
    (true, results)
  let st := (["sources", "headers"]).foldl
    (fun (st : Bool × ValidationResults) field =>
      match yget module field with
      | some v =>
        if ¬isListPy v then
          (false, add_error st.2 module_name 1 (.fieldNotList field))
        else if ¬(ylistOf v).all isStr then
          (false, add_error st.2 module_name 1 (.fieldItemsNotStrings field))
        else st
      | none => st)
    st
  let st :=
    match yget module "dependencies" with
    | some deps =>
      if ¬isDictPy deps then
        (false, add_error st.2 module_name 1 .dependenciesNotDict)
      else
        (["requires", "provides"]).foldl
          (fun (st : Bool × ValidationResults) field =>
            match pget deps field with
            | some v =>
              if ¬isListPy v then
                (false, add_error st.2 module_name 1 (.dependenciesFieldNotList field))
              else if ¬(ylistOf v).all isStr then
                (false,
                  add_error st.2 module_name 1 (.dependenciesFieldItemsNotStrings field))
              else st
            | none => st)
          st
    | none => st
  let st :=
    match yget module "parameters" with
    | some params =>
      if ¬isListPy params then
        (false, add_error st.2 module_name 1 .parametersNotList)
      else
        (ylistOf params).enum.foldl
          (fun (st : Bool × ValidationResults) ip =>
            if ¬isDictPy ip.2 then
              (false, add_error st.2 module_name 1 (.parameterNotDict ip.1))
            else
              let missing := (["name", "type", "default", "description"]).filter
                fun f => (pget ip.2 f).isNone
              if ¬missing.isEmpty then
                (false,
                  add_error st.2 module_name 1 (.parameterMissingFields ip.1 missing))
              else st)
          st
    | none => st
  match yget module "default_enabled" with
  | some v =>
    if ¬isBoolPy v then
      (false, add_error st.2 module_name 1 .defaultEnabledNotBool)
    else st
  | none => st

/-- `validate_version` (lines 367–381).  (`module.get("version", "")` is a
string whenever this stage is reached.) -/
def validate_version (module : YDict) (module_name : String)
    (results : ValidationResults) : Bool × ValidationResults :=
  let version := ygetStr module "version" ""
  if ¬isVersionString version then
    (false, add_error results module_name 1 (.invalidVersion version))
  else (true, results)

/-- `validate_name` (lines 384–416). -/
def validate_name (module : YDict) (module_name : String) (module_dir : MDir)
    (results : ValidationResults) : Bool × ValidationResults :=
  let name := ygetStr module "name" ""
  if ¬isCIdentifier name then
    (false, add_error results module_name 4 (.nameNotIdentifier name))
  else
    let results :=
      if ¬pyIsLower name || ¬name.data.all isWordChar then
        add_warning results module_name (.nameNotLowercase name)
      else results
    if name ≠ module_dir.name then
      (false, add_error results module_name 4 (.nameDirMismatch name module_dir.name))
    else (true, results)

/-- `validate_register_function` (lines 419–436). -/
def validate_register_function (module : YDict) (module_name : String)
    (results : ValidationResults) : Bool × ValidationResults :=
  let name := ygetStr module "name" ""
  let register_func := ygetStr module "register_function" ""
  let expected := name ++ "_register"
  if register_func ≠ expected then
    (false,
      add_error results module_name 4 (.registerFunctionMismatch register_func expected))
  else (true, results)

/-- One iteration of the `validate_parameters` loop (lines 451–527). -/
def paramStep (module_name : String)
    (st : Bool × List YValue × ValidationResults) (i : Nat) (param : YValue) :
    Bool × List YValue × ValidationResults :=
  let valid := st.1
  let param_names := st.2.1
  let results := st.2.2
  let param_name := (pget param "name").getD (.vstr ("<parameter " ++ natToStr i ++ ">"))
  let param_type := pgetD param "type" (.vstr "")
  let vr :=
    if param_type ∉ ([.vstr "double", .vstr "int", .vstr "string"] : List YValue) then
      (false, add_error results module_name 5 (.paramInvalidType param_name param_type))
    else (valid, results)
  let vr :=
    match pget param "default" with
    | none => vr
    | some .vnull => vr
    | some v =>
      if param_type = .vstr "int" ∧ ¬isIntPy v then
        (false, add_error vr.2 module_name 5 (.paramDefaultNotInt param_name))
      else if param_type = .vstr "double" ∧ ¬isNumPy v then
        (false, add_error vr.2 module_name 5 (.paramDefaultNotDouble param_name))
      else if param_type = .vstr "string" ∧ ¬isStr v then
        (false, add_error vr.2 module_name 5 (.paramDefaultNotString param_name))
      else vr
  let vr :=
    match pget param "range" with
    | none => vr
    | some range_val =>
      if param_type ∉ ([.vstr "int", .vstr "double"] : List YValue) then
        (vr.1, add_warning vr.2 module_name (.paramRangeWrongType param_name param_type))
      else
        match range_val with
        | .vlist [a, b] =>
          if pyGT a b then
            (false, add_error vr.2 module_name 5 (.paramRangeMinGtMax param_name))
          else vr
        | _ => (false, add_error vr.2 module_name 5 (.paramRangeNotPair param_name))
  let vr :=
    if param_names.contains param_name then
      (false, add_error vr.2 module_name 5 (.duplicateParameter param_name))
    else vr
  let param_names := param_names ++ [param_name]
  let vr :=
    if ¬isCIdentY param_name then
      (false, add_error vr.2 module_name 4 (.paramNameNotIdentifier param_name))
    else vr
  (vr.1, param_names, vr.2)

/-- `validate_parameters` (lines 439–529). -/
def validate_parameters (module : YDict) (module_name : String)
    (results : ValidationResults) : Bool × ValidationResults :=
  let params := ygetList module "parameters"
  if params.isEmpty then (true, results)
  else
    let st := params.enum.foldl
      (fun st ip => paramStep module_name st ip.1 ip.2)
      ((true, [], results) : Bool × List YValue × ValidationResults)
    (st.1, st.2.2)

/-- `validate_compilation_requires` (lines 532–555). -/
def validate_compilation_requires (module : YDict) (module_name : String)
    (results : ValidationResults) : Bool × ValidationResults :=
  match yget module "compilation_requires" with
  | none => (true, results)
  | some reqs =>
    if ¬isListPy reqs then
      (false, add_error results module_name 1 .compilationRequiresNotList)
    else
      let invalid := (ylistOf reqs).filter
        fun req => req ∉ ([.vstr "HDF5", .vstr "MPI", .vstr "GSL"] : List YValue)
      if ¬invalid.isEmpty then
        (false,
          add_error results module_name 1 (.invalidCompilationRequirements invalid))
      else (true, results)

/-- `validate_source_files` (lines 563–585). -/
def validate_source_files (module : YDict) (module_name : String)
    (module_dir : MDir) (fs : List String) (results : ValidationResults) :
    Bool × ValidationResults :=
  let st := (ygetList module "sources").foldl
    (fun (st : Bool × ValidationResults) sv =>
      let source := toStrD sv
      if ¬fs.contains (module_dir.path ++ "/" ++ source) then
        (false, add_error st.2 module_name 2 (.sourceFileNotFound source))
      else st)
    (true, results)
  (ygetList module "headers").foldl
    (fun (st : Bool × ValidationResults) hv =>
      let header := toStrD hv
      if ¬fs.contains (module_dir.path ++ "/" ++ header) then
        (false, add_error st.2 module_name 2 (.headerFileNotFound header))
      else st)
    st

/-- One declared test file of a given kind checked against the filesystem
(unit tests may live in the module directory or under `tests/unit/`; the
other kinds only in the module directory). -/
def checkTestFile (module_name : String) (module_dir : MDir) (fs : List String)
    (central : Bool) (mk : String → VMsg) (results : ValidationResults)
    (tv : YValue) : ValidationResults :=
  let f := toStrD tv
  let found := fs.contains (module_dir.path ++ "/" ++ f) ||
    (central && fs.contains ("tests/unit/" ++ f))
  if ¬found then add_warning results module_name (mk f) else results

/-- `validate_test_files` (lines 588–662): warnings only, always `True`. -/
def validate_test_files (module : YDict) (module_name : String)
    (module_dir : MDir) (fs : List String) (results : ValidationResults) :
    Bool × ValidationResults :=
  match yget module "tests" with
  | none => (true, add_warning results module_name .noTestFiles)
  | some tests =>
    let step := fun (central : Bool) (mk : String → VMsg)
        (results : ValidationResults) (v : YValue) =>
      match v with
      | .vlist l => l.foldl (checkTestFile module_name module_dir fs central mk) results
      | single => checkTestFile module_name module_dir fs central mk results single
    let results :=
      match pget tests "unit" with
      | some v => step true .unitTestNotFound results v
      | none => results
    let results :=
      match pget tests "integration" with
      | some v => step false .integrationTestNotFound results v
      | none => results
    let results :=
      match pget tests "scientific" with
      | some v => step false .scientificTestNotFound results v
      | none => results
    (true, results)

/-- `validate_doc_files` (lines 665–683): warnings only, always `True`. -/
def validate_doc_files (module : YDict) (module_name : String)
    (fs : List String) (results : ValidationResults) : Bool × ValidationResults :=
  match yget module "docs" with
  | none => (true, add_warning results module_name .noDocs)
  | some docs =>
    let results :=
      match pget docs "physics" with
      | some pv =>
        let p := toStrD pv
        if ¬fs.contains p then
          add_warning results module_name (.physicsDocNotFound p)
        else results
      | none => results
    (true, results)

/-- `\s` (ASCII). -/
def isSpaceChar (c : Char) : Bool :=
  c = ' ' || c = '\t' || c = '\n' || c = '\x0d' || c = '\x0b' || c = '\x0c'

/-- After `void` the pattern requires one-or-more whitespace. -/
def dropSpacesOnePlus (l : List Char) : Option (List Char) :=
  match l with
  | c :: rest => if isSpaceChar c then some (rest.dropWhile isSpaceChar) else none
  | [] => none

/-- Does `l` begin with `void\s+<fname>\s*\(`? -/
def matchVoidAt (l : List Char) (fname : List Char) : Bool :=
  if l.take 4 = ['v', 'o', 'i', 'd'] then
    match dropSpacesOnePlus (l.drop 4) with
    | none => false
    | some r =>
      fname.isPrefixOf r &&
      ((r.drop fname.length).dropWhile isSpaceChar).head? = some '('
  else false

/-- `re.search(rf"\bvoid\s+{re.escape(f)}\s*\(", content)`: scan every
position with the preceding character as word-boundary context. -/
def findRegisterFrom (fname : List Char) : Option Char → List Char → Bool
  | _, [] => false
  | prev, c :: rest =>
    (prev.all (fun p => ¬isWordChar p) && matchVoidAt (c :: rest) fname) ||
    findRegisterFrom fname (some c) rest

def findRegister (content : List Char) (fname : List Char) : Bool :=
  findRegisterFrom fname none content

/-- `validate_register_function_exists` (lines 691–730). -/
def validate_register_function_exists (module : YDict) (module_name : String)
    (module_dir : MDir) (fs : List String) (contents : String → String)
    (results : ValidationResults) : Bool × ValidationResults :=
  let register_func := ygetStr module "register_function" ""
  if register_func = "" then (false, results)
  else
    let found := (ygetList module "sources").any fun sv =>
      let path := module_dir.path ++ "/" ++ toStrD sv
      fs.contains path && findRegister (contents path).data register_func.data
    if ¬found then
      (false, add_error results module_name 6 (.registerFunctionNotFound register_func))
    else (true, results)

/-- `module.get("name", module_dir.name)`. -/
def moduleNameOf (module : YDict) (module_dir : MDir) : String :=
  match yget module "name" with
  | some (.vstr s) => s
  | some _ => ""
  | none => module_dir.name

/-- `validate_module` (lines 885–959): the per-module pipeline.  Regular
modules run the schema stages in order and *return at the first failing
stage*; utility modules (`is_utility` truthy) only check the name and the
test files.  `property_metadata` and `verbose` are carried but unused, as
in the source (verbose output only prints). -/
def validate_module (module_dir : MDir) (module : YDict)
    (property_metadata : List String) (fs : List String)
    (contents : String → String) (results : ValidationResults)
    (verbose : Bool) : Bool × ValidationResults :=
  let module_name := moduleNameOf module module_dir
  let is_utility := pyTruthy (ygetD module "is_utility" (.vbool false))
  if is_utility then
    if (yget module "name").isNone then
      (false, add_error results module_name 1 .missingFieldName)
    else
      let r := validate_name module module_name module_dir results
      if ¬r.1 then (false, r.2)
      else
        let r₂ := validate_test_files module module_name module_dir fs r.2
        (true, r₂.2)
  else
    let r := validate_required_fields module module_name results
    if ¬r.1 then (false, r.2) else
    let r := validate_field_types module module_name r.2
    if ¬r.1 then (false, r.2) else
    let r := validate_version module module_name r.2
    if ¬r.1 then (false, r.2) else
    let r := validate_name module module_name module_dir r.2
    if ¬r.1 then (false, r.2) else
    let r := validate_register_function module module_name r.2
    if ¬r.1 then (false, r.2) else
    let r := validate_parameters module module_name r.2
    if ¬r.1 then (false, r.2) else
    let r := validate_compilation_requires module module_name r.2
    if ¬r.1 then (false, r.2) else
    let r := validate_source_files module module_name module_dir fs r.2
    if ¬r.1 then (false, r.2) else
    let r := validate_test_files module module_name module_dir fs r.2
    let r₂ := validate_doc_files module module_name fs r.2
    let r₃ := validate_register_function_exists module module_name module_dir fs
      contents r₂.2
    (true, r₃.2)

/-- `validate_module_dependencies` (lines 769–835): the capability names of
one module checked against the property metadata (the verbose-only
modification-pattern warning iterates `set(requires) & set(provides)`,
whose CPython order is unspecified; first-occurrence order here). -/
def validate_module_dependencies (m : DepGraph.DepModule) (module_name : String)
    (property_metadata : List String) (results : ValidationResults)
    (verbose : Bool) : Bool × ValidationResults :=
  let st := m.requires.foldl
    (fun (st : Bool × ValidationResults) req =>
      if ¬property_metadata.contains req then
        (false, add_error st.2 module_name 3 (.requiredPropertyNotFound req))
      else st)
    (true, results)
  let st := m.provides.foldl
    (fun (st : Bool × ValidationResults) prov =>
      if ¬property_metadata.contains prov then
        (false, add_error st.2 module_name 3 (.providedPropertyNotFound prov))
      else st)
    st
  (dedup (m.requires.filter fun r => m.provides.contains r)).foldl
    (fun (st : Bool × ValidationResults) prop =>
      if property_metadata.contains prop && verbose then
        (st.1, add_warning st.2 module_name (.modifiesProperty prop))
      else st)
    st

/-- `validate_dependencies` (lines 838–877): per-module capability checks,
then the cycle check via `TopologicalSorter` — a `CycleError` records a
`GLOBAL` diagnostic of exit-code class 3 carrying the detected cycle and
makes the function return `False` at once. -/
def validate_dependencies (modules : List DepGraph.DepModule)
    (property_metadata : List String) (results : ValidationResults)
    (verbose : Bool) : Bool × ValidationResults :=
  if modules.isEmpty then (true, results)
  else
    let st := modules.foldl
      (fun (st : Bool × ValidationResults) m =>
        let r := validate_module_dependencies m m.name property_metadata st.2 verbose
        (st.1 && r.1, r.2))
      (true, results)
    match DepGraph.static_order (DepGraph.build_dependency_graph_validator modules) with
    | .error cyc => (false, add_error st.2 "GLOBAL" 3 (.circularDependency cyc))
    | .ok _ => (st.1, st.2)

end ValidateModules

namespace GenerateProperties

/-! ## scripts/generate_properties.py — property validation and emitters -/

/-- A property definition as read from `{halo|galaxy}_properties.yaml`: the
fields of the schema, `none` when the key is absent from the YAML mapping.
`ptype` is the `type` key; `init_value` and the `output_*` expression fields
carry the text exactly as it is interpolated into generated code. -/
structure PropSpec where
  name : Option String
  ptype : Option String
  units : Option String
  description : Option String
  output : Option Bool
  init_source : Option String
  init_value : Option String
  init_function : Option String
  output_source : Option String
  output_tree_field : Option String
  output_function : Option String
  output_function_arg : Option String
  output_condition : Option String
  output_true_value : Option String
  output_false_value : Option String
deriving DecidableEq, Repr

/-- A property with only the five required fields set. -/
def basicProp (name ptype units description : String) (output : Bool) : PropSpec :=
  ⟨some name, some ptype, some units, some description, some output,
   none, none, none, none, none, none, none, none, none, none⟩

/-- The keys of `TYPE_MAP`. -/
def TYPE_MAP_keys : List String :=
  ["int", "float", "double", "long long", "vec3_float", "vec3_int"]

/-- `TYPE_MAP[t]["c_type"]`. -/
def typeCType : String → String
  | "int" => "int"
  | "float" => "float"
  | "double" => "double"
  | "long long" => "long long"
  | "vec3_float" => "float"
  | "vec3_int" => "int"
  | _ => ""

/-- `TYPE_MAP[t].get("c_array", "")`. -/
def typeCArray : String → String
  | "vec3_float" => "[3]"
  | "vec3_int" => "[3]"
  | _ => ""

/-- `TYPE_MAP[t]["is_array"]`. -/
def typeIsArray : String → Bool
  | "vec3_float" => true
  | "vec3_int" => true
  | _ => false

/-- `TYPE_MAP[t]["array_size"]` (only array types carry one). -/
def typeArraySize : String → Nat
  | _ => 3

/-- `VALID_INIT_SOURCES` (lines 92–98). -/
def VALID_INIT_SOURCES : List String :=
  ["default", "copy_from_tree", "copy_from_tree_array", "calculate", "skip"]

/-- `VALID_OUTPUT_SOURCES` (lines 99–108). -/
def VALID_OUTPUT_SOURCES : List String :=
  ["copy_direct", "copy_direct_array", "copy_from_tree", "copy_from_tree_array",
   "recalculate", "conditional", "custom", "galaxy_property"]

/-- The `ValueError` raise sites of `generate_properties.py`, with the
interpolated data carried structurally. -/
inductive PropErr where
  | missingField (category field : String)
  | invalidType (t name : String)
  | invalidName (name : String)
  | invalidInitSource (src name : String)
  | invalidOutputSource (src name : String)
  | missingInitValue (name : String)
  | missingInitFunction (name : String)
  | missingOutputTreeField (name : String)
  | missingRecalculateFields (name : String)
  | missingConditionalField (name field : String)
  | duplicateNames (names : List String)
  | notArrayInitCopy (name : String)
  | notArrayOutputCopy (name : String)
deriving DecidableEq, Repr

/-- Presence of a field, in source order of the required-field list. -/
def requiredFieldMissing (p : PropSpec) : Option String :=
  if p.name.isNone then some "name"
  else if p.ptype.isNone then some "type"
  else if p.units.isNone then some "units"
  else if p.description.isNone then some "description"
  else if p.output.isNone then some "output"
  else none

/-- `validate_property` (lines 133–207): the first failing check raises. -/
def validate_property (p : PropSpec) (category : String) : Except PropErr Unit := do
  match requiredFieldMissing p with
  | some field => throw (.missingField category field)
  | none => pure ()
  let name := p.name.getD ""
  if ¬TYPE_MAP_keys.contains (p.ptype.getD "") then
    throw (.invalidType (p.ptype.getD "") name)
  if ¬ValidateModules.isCIdentifier name then
    throw (.invalidName name)
  if category = "halo" then
    match p.init_source with
    | some src =>
      if ¬VALID_INIT_SOURCES.contains src then
        throw (.invalidInitSource src name)
    | none => pure ()
  if p.output.getD false then
    match p.output_source with
    | some src =>
      if ¬VALID_OUTPUT_SOURCES.contains src then
        throw (.invalidOutputSource src name)
    | none => pure ()
  if p.init_source = some "default" ∧ p.init_value.isNone then
    throw (.missingInitValue name)
  if p.init_source = some "calculate" ∧ p.init_function.isNone then
    throw (.missingInitFunction name)
  if p.output_source = some "copy_from_tree" ∧ p.output_tree_field.isNone then
    throw (.missingOutputTreeField name)
  if p.output_source = some "recalculate" ∧
      (p.output_function.isNone ∨ p.output_function_arg.isNone) then
    throw (.missingRecalculateFields name)
  if p.output_source = some "conditional" then
    if p.output_condition.isNone then throw (.missingConditionalField name "output_condition")
    if p.output_true_value.isNone then throw (.missingConditionalField name "output_true_value")
    if p.output_false_value.isNone then throw (.missingConditionalField name "output_false_value")

/-- `validate_properties` (lines 209–226): every property in order (the
first invalid one raises), then the duplicate-name check over
`set(all_names)` (CPython set order unspecified; first-occurrence order
here). -/
def validate_properties (halo_props galaxy_props : List PropSpec) :
    Except PropErr Unit := do
  for p in halo_props do
    validate_property p "halo"
  for p in galaxy_props do
    validate_property p "galaxy"
  let all_names := halo_props.map (fun p => p.name.getD "") ++
    galaxy_props.map (fun p => p.name.getD "")
  let duplicates := (dedup all_names).filter fun n => all_names.count n > 1
  if ¬duplicates.isEmpty then
    throw (.duplicateNames duplicates)

/-- `generate_header` (lines 246–261). -/
def generate_header (yaml_hash now : String) : String :=
  "/* AUTO-GENERATED CODE - DO NOT EDIT\n" ++
  " *\n" ++
  " * Generated by: scripts/generate_properties.py\n" ++
  " * Generated on: " ++ now ++ "\n" ++
  " *\n" ++
  " * Source files:\n" ++
  " *   - metadata/properties/halo_properties.yaml\n" ++
  " *   - metadata/properties/galaxy_properties.yaml\n" ++
  " *\n" ++
  " * Source MD5: " ++ yaml_hash ++ "\n" ++
  " * To regenerate: make generate\n" ++
  " */\n" ++
  "\n"

/-- One struct-field line `  <c_type> <name><suffix>;`. -/
def fieldLine (p : PropSpec) : String :=
  "  " ++ typeCType (p.ptype.getD "") ++ " " ++ p.name.getD "" ++
    typeCArray (p.ptype.getD "") ++ ";\n"

/-- Membership of a halo property in `struct Halo`: internal-only, or with
real processing logic (`init_source != "skip"`; an absent `init_source`
counts as processing here, unlike the init emitter's default). -/
def inStructHalo (p : PropSpec) : Bool :=
  ¬(p.output.getD false) || p.init_source ≠ some "skip"

/-- `generate_property_defs_h` (lines 264–328). -/
def generate_property_defs_h (halo_props galaxy_props : List PropSpec)
    (yaml_hash now : String) : String :=
  generate_header yaml_hash now ++
  "#ifndef GENERATED_PROPERTY_DEFS_H\n" ++
  "#define GENERATED_PROPERTY_DEFS_H\n\n" ++
  "/* Forward declarations */\n" ++
  "struct GalaxyData;\n\n" ++
  "/* Halo properties (internal processing) */\n" ++
  "struct Halo \x7b\n" ++
  "  /* Halo properties */\n" ++
  (halo_props.foldl (fun code p =>
    if inStructHalo p then code ++ fieldLine p else code) "") ++
  "\n  /* Galaxy pointer (physics-agnostic separation) */\n" ++
  "  struct GalaxyData *galaxy;\n" ++
  "\x7d;\n\n" ++
  "/* Galaxy properties (baryonic physics) */\n" ++
  "struct GalaxyData \x7b\n" ++
  (galaxy_props.foldl (fun code p => code ++ fieldLine p) "") ++
  "\x7d;\n\n" ++
  "/* Output structure (file writing) */\n" ++
  "struct HaloOutput \x7b\n" ++
  "  /* Halo properties */\n" ++
  (halo_props.foldl (fun code p =>
    if p.output.getD false then code ++ fieldLine p else code) "") ++
  "\n  /* Galaxy properties */\n" ++
  (galaxy_props.foldl (fun code p =>
    if p.output.getD false then code ++ fieldLine p else code) "") ++
  "\x7d;\n\n" ++
  "#endif /* GENERATED_PROPERTY_DEFS_H */\n"

/-- The loop body of `generate_init_halo_properties` for one property. -/
def initHaloLine (p : PropSpec) : Except PropErr String :=
  let init_source := p.init_source.getD "skip"
  let name := p.name.getD ""
  if init_source = "skip" then
    if inStructHalo p then
      pure ("/* " ++ name ++ ": skip (custom initialization in init_halo) */\n")
    else
      pure ("/* " ++ name ++ ": skip (output-only, not in struct Halo) */\n")
  else if init_source = "default" then
    pure ("FoFWorkspace[p]." ++ name ++ " = " ++ p.init_value.getD "" ++ ";\n")
  else if init_source = "copy_from_tree" then
    pure ("FoFWorkspace[p]." ++ name ++ " = InputTreeHalos[halonr]." ++ name ++ ";\n")
  else if init_source = "copy_from_tree_array" then
    if ¬typeIsArray (p.ptype.getD "") then
      throw (.notArrayInitCopy name)
    else
      pure ("for (int j = 0; j < " ++ ValidateModules.natToStr (typeArraySize (p.ptype.getD "")) ++
        "; j++) \x7b\n" ++
        "  FoFWorkspace[p]." ++ name ++ "[j] = InputTreeHalos[halonr]." ++ name ++ "[j];\n" ++
        "\x7d\n")
  else if init_source = "calculate" then
    pure ("FoFWorkspace[p]." ++ name ++ " = " ++ p.init_function.getD "" ++ "(halonr);\n")
  else
    pure ""

/-- `generate_init_halo_properties` (lines 331–375). -/
def generate_init_halo_properties (halo_props : List PropSpec)
    (yaml_hash now : String) : Except PropErr String := do
  let mut code := generate_header yaml_hash now ++
    "/* Initialize halo properties in init_halo(int p, int halonr) */\n\n"
  for p in halo_props do
    code := code ++ (← initHaloLine p)
  return code

/-- `generate_init_galaxy_properties` (lines 378–394): galaxy properties
default to `init_source = "default"`. -/
def generate_init_galaxy_properties (galaxy_props : List PropSpec)
    (yaml_hash now : String) : String :=
  generate_header yaml_hash now ++
  "/* Initialize galaxy properties after allocating FoFWorkspace[p].galaxy */\n\n" ++
  galaxy_props.foldl (fun code p =>
    if p.init_source.getD "default" = "default" then
      code ++ "FoFWorkspace[p].galaxy->" ++ p.name.getD "" ++ " = " ++
        p.init_value.getD "0.0" ++ ";\n"
    else code) ""

/-- The halo-property loop body of `generate_copy_to_output`: one emitted
fragment per `output_source` variant (absent defaults to `copy_direct`);
non-output properties contribute nothing. -/
def copyHaloLine (p : PropSpec) : Except PropErr String :=
  if ¬(p.output.getD false) then pure ""
  else
    let output_source := p.output_source.getD "copy_direct"
    let name := p.name.getD ""
    if output_source = "custom" then
      pure ("/* CUSTOM: " ++ name ++ " - see prepare_halo_for_output() for hand-written code */\n")
    else if output_source = "copy_direct" then
      pure ("o->" ++ name ++ " = g->" ++ name ++ ";\n")
    else if output_source = "copy_direct_array" then
      if ¬typeIsArray (p.ptype.getD "") then
        throw (.notArrayOutputCopy name)
      else
        pure ("for (int j = 0; j < " ++ ValidateModules.natToStr (typeArraySize (p.ptype.getD "")) ++
          "; j++) \x7b\n" ++
          "  o->" ++ name ++ "[j] = g->" ++ name ++ "[j];\n" ++
          "\x7d\n")
    else if output_source = "copy_from_tree" then
      pure ("o->" ++ name ++ " = InputTreeHalos[g->HaloNr]." ++
        p.output_tree_field.getD "" ++ ";\n")
    else if output_source = "copy_from_tree_array" then
      if ¬typeIsArray (p.ptype.getD "") then
        throw (.notArrayOutputCopy name)
      else
        pure ("for (int j = 0; j < " ++ ValidateModules.natToStr (typeArraySize (p.ptype.getD "")) ++
          "; j++) \x7b\n" ++
          "  o->" ++ name ++ "[j] = InputTreeHalos[g->HaloNr]." ++
          p.output_tree_field.getD "" ++ "[j];\n" ++
          "\x7d\n")
    else if output_source = "recalculate" then
      pure ("o->" ++ name ++ " = " ++ p.output_function.getD "" ++ "(" ++
        p.output_function_arg.getD "" ++ ");\n")
    else if output_source = "conditional" then
      pure ("if (" ++ p.output_condition.getD "" ++ ") \x7b\n" ++
        "  o->" ++ name ++ " = " ++ p.output_true_value.getD "" ++ ";\n" ++
        "\x7d else \x7b\n" ++
        "  o->" ++ name ++ " = " ++ p.output_false_value.getD "" ++ ";\n" ++
        "\x7d\n")
    else
      pure ""

/-- The galaxy-property loop body of `generate_copy_to_output` (lines
460–471): only the `galaxy_property` variant (the default when
`output_source` is absent) emits anything; every other `output_source`
value contributes neither code nor comment. -/
def copyGalaxyLine (p : PropSpec) : String :=
  if ¬(p.output.getD false) then ""
  else if p.output_source.getD "galaxy_property" = "galaxy_property" then
    "o->" ++ p.name.getD "" ++ " = g->galaxy->" ++ p.name.getD "" ++ ";\n"
  else ""

/-- `generate_copy_to_output` (lines 397–471). -/
def generate_copy_to_output (halo_props galaxy_props : List PropSpec)
    (yaml_hash now : String) : Except PropErr String := do
  let mut code := generate_header yaml_hash now ++
    "/* Copy properties from struct Halo to struct HaloOutput\n" ++
    " * Used in prepare_halo_for_output(int filenr, int tree, const struct Halo *g, struct HaloOutput *o)\n" ++
    " */\n\n" ++
    "/* Halo properties */\n"
  for p in halo_props do
    code := code ++ (← copyHaloLine p)
  code := code ++ "\n/* Galaxy properties */\n"
  for p in galaxy_props do
    code := code ++ copyGalaxyLine p
  return code

end GenerateProperties

namespace PyStr

/-! ## Python string primitives

Implemented by structural recursion over `List Char` so that concrete runs
reduce inside the kernel (the core `String` routines do not). -/

/-- Core of `str.split(sep)` for a non-empty separator: scan left to right,
splitting at each non-overlapping occurrence.  `acc` holds the current
piece reversed; the fuel (`length + 1`) always suffices, every step consumes
at least one character. -/
def pySplitCore (sep : List Char) : Nat → List Char → List Char → List (List Char)
  | 0, acc, l => [acc.reverse ++ l]
  | fuel + 1, acc, l =>
    if sep.isPrefixOf l then
      acc.reverse :: pySplitCore sep fuel [] (l.drop sep.length)
    else
      match l with
      | [] => [acc.reverse]
      | c :: rest => pySplitCore sep fuel (c :: acc) rest

/-- Python `s.split(sep)` (an empty separator raises in Python). -/
def pySplit (sep s : String) : List String :=
  if sep = "" then [s]
  else (pySplitCore sep.data (s.data.length + 1) [] s.data).map fun l => ⟨l⟩

/-- Python `sub in s` on strings. -/
def strContains (sub s : String) : Bool :=
  (pySplit sub s).length ≥ 2 || sub = ""

/-- The number of non-overlapping occurrences of `sub` in `s`
(Python `s.count(sub)` for non-empty `sub`). -/
def occurrences (sub s : String) : Nat :=
  (pySplit sub s).length - 1

/-- Python `s.strip(chars)`: drop the characters satisfying `pred` from
both ends. -/
def pyStripBy (pred : Char → Bool) (s : String) : String :=
  ⟨((s.data.dropWhile pred).reverse.dropWhile pred).reverse⟩

/-- Python `s.strip()` (ASCII whitespace). -/
def pyStrip (s : String) : String :=
  pyStripBy ValidateModules.isSpaceChar s

/-- Python `s.strip("*/")`. -/
def pyStripStarSlash (s : String) : String :=
  pyStripBy (fun c => c = '*' || c = '/') s

/-- Python `s.startswith(pre)`. -/
def pyStartsWith (pre s : String) : Bool :=
  pre.data.isPrefixOf s.data

end PyStr

namespace CheckGenerated

/-! ## scripts/check_generated.py — the staleness checker -/

/-- A generated artifact as the checker sees it: its file name and, when the
file exists, its lines (without trailing newlines — `str.strip()` removes
them anyway). -/
structure GenFile where
  name : String
  content : Option (List String)
deriving DecidableEq, Repr

/-- The scan inside `extract_yaml_hash_from_file` (lines 65–88) over the
first (up to) 20 lines: the first line containing `Source MD5:` whose
tail, stripped of whitespace and `*/` characters, is 32 characters long
yields the hash; otherwise the scan continues, and `""` results when no
line qualifies. -/
def extractScan : List String → String
  | [] => ""
  | line :: rest =>
    if PyStr.strContains "Source MD5:" line then
      match (PyStr.pySplit "Source MD5:" line).get? 1 with
      | some tail =>
        let hash_str := PyStr.pyStrip (PyStr.pyStripStarSlash (PyStr.pyStrip tail))
        if hash_str.length = 32 then hash_str else extractScan rest
      | none => extractScan rest
    else extractScan rest

/-- `extract_yaml_hash_from_file`: `""` for a missing file, else the header
scan over the first 20 lines. -/
def extract_yaml_hash_from_file (f : GenFile) : String :=
  match f.content with
  | none => ""
  | some lines => extractScan (lines.take 20)

/-- The embedded-hash verdict of one artifact for the mismatch report:
missing files and extracted hashes different from the computed one are
mismatches; files whose scan yields nothing are only "missing hash". -/
def isMismatch (current_yaml_hash : String) (f : GenFile) : Bool :=
  match f.content with
  | none => true
  | some lines =>
    let embedded := extractScan (lines.take 20)
    embedded ≠ "" && embedded ≠ current_yaml_hash

/-- Whether an existing artifact has no extractable embedded hash. -/
def isMissingHash (f : GenFile) : Bool :=
  match f.content with
  | none => false
  | some lines => extractScan (lines.take 20) = ""

/-- `check_yaml_hashes` (lines 118–161): `(return value, mismatches,
missing_hash)`.  An empty computed hash (an input YAML missing) fails at
once; otherwise the check fails exactly when the mismatch list is
non-empty — files with no extractable hash only produce a warning. -/
def check_yaml_hashes (current_yaml_hash : String) (files : List GenFile) :
    Bool × List String × List String :=
  if current_yaml_hash = "" then (false, [], [])
  else
    let st := files.foldl
      (fun (st : List String × List String) f =>
        match f.content with
        | none => (st.1 ++ [f.name], st.2)
        | some lines =>
          let embedded := extractScan (lines.take 20)
          if embedded = "" then (st.1, st.2 ++ [f.name])
          else if embedded ≠ current_yaml_hash then (st.1 ++ [f.name], st.2)
          else st)
      ([], [])
    (st.1.isEmpty, st.1, st.2)

/-- `check_file_marker` (lines 163–186): the `AUTO-GENERATED` marker must
occur in the first 100 bytes of every existing artifact (the byte window is
modelled over the artifact's text re-joined with newlines). -/
def firstHundred (lines : List String) : String :=
  ⟨((String.intercalate "\n" lines).data.take 100)⟩

def check_file_marker (files : List GenFile) : Bool :=
  (files.filter fun f =>
    match f.content with
    | none => false
    | some lines => ¬PyStr.strContains "AUTO-GENERATED" (firstHundred lines)).isEmpty

end CheckGenerated

namespace Discovery

/-! ## Module discovery (`discover_modules`)

`generate_module_registry.discover_modules` (lines 84–104) and
`validate_modules.discover_modules` (lines 157–176) both iterate
`sorted(MODULES_DIR.iterdir())` and skip non-directories and every entry
whose name starts with `_`.  The registry variant keeps only entries whose
`module_info.yaml` loads to a dict with a `module` key; the validator
variant keeps every surviving entry together with its (possibly failed)
load result.
-/

/-- One entry of the modules directory: its name, whether it is a
directory, the result of `load_module_metadata` on it (`none` when
`module_info.yaml` is missing, fails to parse, is empty or has no `module`
key), and its own directory listing (never visited by discovery — the scan
does not recurse). -/
inductive DirEntry where
  | mk (name : String) (isDir : Bool) (metadata : Option ValidateModules.YDict)
      (children : List DirEntry)
deriving Repr

def DirEntry.name : DirEntry → String
  | .mk n _ _ _ => n

def DirEntry.isDir : DirEntry → Bool
  | .mk _ d _ _ => d

def DirEntry.metadata : DirEntry → Option ValidateModules.YDict
  | .mk _ _ m _ => m

def DirEntry.children : DirEntry → List DirEntry
  | .mk _ _ _ c => c

/-- Lexicographic order on characters/strings for `sorted(...iterdir())`,
structurally recursive. -/
def charListLe : List Char → List Char → Bool
  | [], _ => true
  | _ :: _, [] => false
  | a :: as, b :: bs =>
    if a = b then charListLe as bs else a.toNat ≤ b.toNat

def insertByName (e : DirEntry) : List DirEntry → List DirEntry
  | [] => [e]
  | x :: xs =>
    if charListLe e.name.data x.name.data then e :: x :: xs
    else x :: insertByName e xs

def sortByName (entries : List DirEntry) : List DirEntry :=
  entries.foldr insertByName []

/-- `generate_module_registry.discover_modules`: every `_`-prefixed entry is
skipped — there is no exception for any entry, `_system` included. -/
def discover_modules_registry (entries : List DirEntry) : List ValidateModules.YDict :=
  (sortByName entries).foldl
    (fun acc e =>
      if ¬e.isDir then acc
      else if PyStr.pyStartsWith "_" e.name then acc
      else
        match e.metadata with
        | some m => acc ++ [m]
        | none => acc)
    []

/-- `validate_modules.discover_modules`: same scan, but entries without
loadable metadata are kept with `none`. -/
def discover_modules_validator (entries : List DirEntry) :
    List (String × Option ValidateModules.YDict) :=
  (sortByName entries).foldl
    (fun acc e =>
      if ¬e.isDir then acc
      else if PyStr.pyStartsWith "_" e.name then acc
      else acc ++ [(e.name, e.metadata)])
    []

end Discovery

open DepGraph ValidateModules GenerateProperties CheckGenerated Discovery PyStr

/-! # Lemmas and claim theorems -/

/-! ## C3 — exit code of a validator run -/

/-- The error entry a diagnostic event contributes, if any. -/
def encodeErr : DiagEvent → Option ValidationError
  | .err m c msg => some ⟨m, "ERROR", c, msg⟩
  | .warn _ _ => none

theorem runEvents_errors (evs : List DiagEvent) (r : ValidationResults) :
    (runEvents r evs).errors = r.errors ++ evs.filterMap encodeErr := by
  induction evs generalizing r with
  | nil => simp [runEvents]
  | cons e rest ih =>
    cases e with
    | err m c msg =>
      simp only [runEvents, List.foldl_cons] at *
      rw [ih]
      simp [recordEvent, add_error, encodeErr]
    | warn m msg =>
      simp only [runEvents, List.foldl_cons] at *
      rw [ih]
      simp [recordEvent, add_warning, encodeErr]

theorem filterMap_encodeErr_head (evs : List DiagEvent) :
    (evs.filterMap encodeErr).head? = (evs.find? isErrEvent).bind encodeErr := by
  induction evs with
  | nil => simp
  | cons e rest ih =>
    cases e with
    | err m c msg => simp [encodeErr, isErrEvent, List.find?]
    | warn m msg => simpa [encodeErr, isErrEvent, List.find?] using ih

theorem get_exit_code_head (r : ValidationResults) :
    get_exit_code r = ((r.errors.head?).map ValidationError.exit_code).getD 0 := by
  cases h : r.errors with
  | nil => simp [get_exit_code, h]
  | cons e rest => simp [get_exit_code, h]

/-- C3 (confirmed).  For every run of the validator, the exit code computed
by `ValidationResults.get_exit_code` is the exit-code class of the *first*
ERROR-severity diagnostic recorded during the run — later or more severe
errors never change it — and a run recording only warnings (no errors)
exits with status 0: warnings never affect the exit code. -/
theorem C3_exit_code_first_error :
    (∀ evs : List DiagEvent,
      get_exit_code (runEvents emptyResults evs) =
        (match evs.find? isErrEvent with
         | some (.err _ c _) => c
         | _ => 0)) ∧
    (∀ evs : List DiagEvent, (∀ e ∈ evs, isErrEvent e = false) →
      get_exit_code (runEvents emptyResults evs) = 0) := by
  have key : ∀ evs : List DiagEvent,
      get_exit_code (runEvents emptyResults evs) =
        (match evs.find? isErrEvent with
         | some (.err _ c _) => c
         | _ => 0) := by
    intro evs
    rw [get_exit_code_head, runEvents_errors]
    simp only [emptyResults, List.nil_append]
    rw [filterMap_encodeErr_head]
    cases h : evs.find? isErrEvent with
    | none => simp
    | some e =>
      cases e with
      | err m c msg => simp [encodeErr]
      | warn m msg =>
        exfalso
        have := List.find?_some h
        simp [isErrEvent] at this
  refine ⟨key, fun evs hno => ?_⟩
  rw [key]
  cases h : evs.find? isErrEvent with
  | none => simp
  | some e =>
    have hmem := List.mem_of_find?_eq_some h
    have := List.find?_some h
    rw [hno e hmem] at this
    exact absurd this (by simp)

/-! ## C7 — emission for the Mvir property -/

/-- The spec's example property: `{name: Mvir, type: float, units:
"1e10 Msun/h", description: "virial mass", output: true, output_source:
copy-direct}` with no `init_source`. -/
def mvirProp : PropSpec :=
  { basicProp "Mvir" "float" "1e10 Msun/h" "virial mass" true with
    output_source := some "copy_direct" }

/-- C7 (confirmed).  For the halo property Mvir (`float`, `output: true`,
`output_source: copy_direct`, no `init_source`): the struct emitter places
the field line `float Mvir;` exactly once before `struct HaloOutput` (in
`struct Halo`, the internal-processing struct) and exactly once inside
`struct HaloOutput` (the output struct); the output-copy emitter emits the
unconditional assignment `o->Mvir = g->Mvir;`; and the initialization
emitter emits only an explanatory comment for Mvir — no initialization
statement (an absent `init_source` defaults to `skip`). -/
theorem C7_mvir_emission :
    ((pySplit "struct HaloOutput \x7b"
        (generate_property_defs_h [mvirProp] [] "abc123" "2025-11-07 00:00:00")).map
      (occurrences "  float Mvir;\n") = [1, 1]) ∧
    (generate_copy_to_output [mvirProp] [] "abc123" "2025-11-07 00:00:00" =
      .ok (generate_header "abc123" "2025-11-07 00:00:00" ++
        "/* Copy properties from struct Halo to struct HaloOutput\n" ++
        " * Used in prepare_halo_for_output(int filenr, int tree, const struct Halo *g, struct HaloOutput *o)\n" ++
        " */\n\n" ++
        "/* Halo properties */\n" ++
        "o->Mvir = g->Mvir;\n" ++
        "\n/* Galaxy properties */\n")) ∧
    (generate_init_halo_properties [mvirProp] "abc123" "2025-11-07 00:00:00" =
      .ok (generate_header "abc123" "2025-11-07 00:00:00" ++
        "/* Initialize halo properties in init_halo(int p, int halonr) */\n\n" ++
        "/* Mvir: skip (custom initialization in init_halo) */\n")) :=
  ⟨by rfl, by rfl, by rfl⟩

/-! ## C8 — init_source validation is halo-only -/

/-- A galaxy property carrying an `init_source` outside the valid set. -/
def galaxyBadInit : PropSpec :=
  { basicProp "ColdGas" "float" "1e10 Msun/h" "cold gas" false with
    init_source := some "bogus" }

/-- C8 counterexample.  The claim says property validation rejects *every*
property (halo or galaxy) whose `init_source` is present but invalid; but
`validate_property` checks `init_source` only for the halo category: this
galaxy property with `init_source: bogus` is accepted, while the identical
property under the halo category is rejected. -/
theorem C8_counterexample :
    galaxyBadInit.init_source = some "bogus" ∧
    VALID_INIT_SOURCES.contains "bogus" = false ∧
    validate_property galaxyBadInit "galaxy" = .ok () ∧
    validate_property galaxyBadInit "halo" =
      .error (.invalidInitSource "bogus" "ColdGas") :=
  ⟨rfl, rfl, rfl, rfl⟩

/-- C8 amended.  For every *halo* property whose `init_source` field is
present but not in `VALID_INIT_SOURCES`, `validate_property` rejects the
property with an error (galaxy properties are not subject to this check —
the code guards it with `category == "halo"`). -/
theorem C8_halo_init_source_amended (p : PropSpec) (src : String)
    (hs : p.init_source = some src)
    (hinv : VALID_INIT_SOURCES.contains src = false) :
    ∃ e, validate_property p "halo" = .error e := by
  have hinv₂ : ¬src ∈ VALID_INIT_SOURCES := by simpa using hinv
  cases hreq : requiredFieldMissing p with
  | some field =>
    exact ⟨.missingField "halo" field, by
      simp [validate_property, hreq, throw, throwThe, MonadExceptOf.throw,
        Bind.bind, Except.bind, Except.instMonad]⟩
  | none =>
    by_cases ht : (p.ptype.getD "") ∈ TYPE_MAP_keys
    · by_cases hn : ValidateModules.isCIdentifier (p.name.getD "") = true
      · exact ⟨.invalidInitSource src (p.name.getD ""),
          by simp [validate_property, hreq, ht, hn, hs, hinv₂, throw, throwThe,
            MonadExceptOf.throw, Bind.bind, Except.bind, Except.instMonad,
            pure, Pure.pure, Except.pure]⟩
      · exact ⟨.invalidName (p.name.getD ""),
          by simp [validate_property, hreq, ht, hn, throw, throwThe,
            MonadExceptOf.throw, Bind.bind, Except.bind, Except.instMonad,
            pure, Pure.pure, Except.pure]⟩
    · exact ⟨.invalidType (p.ptype.getD "") (p.name.getD ""),
        by simp [validate_property, hreq, ht, throw, throwThe,
          MonadExceptOf.throw, Bind.bind, Except.bind, Except.instMonad,
          pure, Pure.pure, Except.pure]⟩

/-- Witness for the amended C8 theorem at a concrete halo property. -/
theorem C8_halo_init_source_amended_witness :
    ∃ e, validate_property { basicProp "Mvir" "float" "u" "d" false with
      init_source := some "bogus" } "halo" = .error e :=
  C8_halo_init_source_amended _ "bogus" rfl rfl

/-! ## C10 — galaxy output-copy emission -/

/-- C10 (confirmed).  In the generated output-copy fragment a galaxy
property with `output: true` contributes a copy statement exactly when its
`output_source` is absent or `galaxy_property`; for `output: true` and any
other `output_source` value the loop body emits nothing — no statement and
no comment. -/
theorem C10_galaxy_output_source (p : PropSpec) (hn : p.name = some "n")
    (ho : p.output = some true) :
    ((p.output_source = none ∨ p.output_source = some "galaxy_property") →
      copyGalaxyLine p = "o->n = g->galaxy->n;\n") ∧
    (∀ s, p.output_source = some s → s ≠ "galaxy_property" →
      copyGalaxyLine p = "") := by
  constructor
  · intro h
    rcases h with h | h <;>
      simp [copyGalaxyLine, h, hn, ho, Option.getD]
  · intro s hs hne
    simp [copyGalaxyLine, hs, hn, ho, Option.getD, hne]

/-- Witness for C10 at two concrete galaxy properties (default payload copy
emitted; `copy_direct` silently omitted). -/
theorem C10_galaxy_output_source_witness :
    copyGalaxyLine (basicProp "n" "float" "u" "d" true) = "o->n = g->galaxy->n;\n" ∧
    copyGalaxyLine { basicProp "n" "float" "u" "d" true with
      output_source := some "copy_direct" } = "" :=
  ⟨(C10_galaxy_output_source (basicProp "n" "float" "u" "d" true) rfl rfl).1 (Or.inl rfl),
   (C10_galaxy_output_source { basicProp "n" "float" "u" "d" true with
      output_source := some "copy_direct" } rfl rfl).2 "copy_direct" rfl (by decide)⟩

/-! ## Shared list lemmas -/

theorem mem_addNew {α : Type} [DecidableEq α] (l : List α) (x y : α) :
    y ∈ addNew l x ↔ y ∈ l ∨ y = x := by
  unfold addNew
  by_cases h : x ∈ l
  · simp only [h, if_true]
    constructor
    · exact Or.inl
    · rintro (hy | rfl) <;> assumption
  · simp [h]

theorem nodup_addNew {α : Type} [DecidableEq α] (l : List α) (x : α)
    (h : l.Nodup) : (addNew l x).Nodup := by
  unfold addNew
  by_cases hx : x ∈ l
  · simpa [hx]
  · simp only [hx, if_false]
    rw [List.nodup_append]
    exact ⟨h, List.nodup_singleton x, by simpa using hx⟩

theorem mem_foldl_addNew {α : Type} [DecidableEq α] :
    ∀ (l acc : List α) (x : α), x ∈ l.foldl addNew acc ↔ x ∈ acc ∨ x ∈ l
  | [], acc, x => by simp
  | a :: rest, acc, x => by
    rw [List.foldl_cons, mem_foldl_addNew rest (addNew acc a) x, mem_addNew]
    simp only [List.mem_cons]
    tauto

theorem nodup_foldl_addNew {α : Type} [DecidableEq α] :
    ∀ (l acc : List α), acc.Nodup → (l.foldl addNew acc).Nodup
  | [], acc, h => h
  | a :: rest, acc, h =>
    nodup_foldl_addNew rest (addNew acc a) (nodup_addNew acc a h)

theorem mem_dedup {α : Type} [DecidableEq α] (l : List α) (x : α) :
    x ∈ dedup l ↔ x ∈ l := by
  unfold dedup
  rw [mem_foldl_addNew]
  simp

theorem nodup_dedup {α : Type} [DecidableEq α] (l : List α) : (dedup l).Nodup :=
  nodup_foldl_addNew l [] List.nodup_nil

theorem dictSet_lookup_self {α : Type} :
    ∀ (g : List (String × α)) (k : String) (v : α),
      (dictSet g k v).lookup k = some v
  | [], k, v => by simp [dictSet, List.lookup]
  | (k₀, v₀) :: rest, k, v => by
    unfold dictSet
    by_cases h : k₀ = k
    · subst h
      simp [List.lookup]
    · have hb : (k == k₀) = false := by simpa using Ne.symm h
      simp [List.lookup, h, hb, dictSet_lookup_self rest k v]

theorem dictSet_lookup_other {α : Type} :
    ∀ (g : List (String × α)) (k : String) (v : α) (x : String), x ≠ k →
      (dictSet g k v).lookup x = g.lookup x
  | [], k, v, x, hx => by
    have hb : (x == k) = false := by simpa using hx
    simp [dictSet, List.lookup, hb]
  | (k₀, v₀) :: rest, k, v, x, hx => by
    unfold dictSet
    by_cases h : k₀ = k
    · subst h
      have hb : (x == k₀) = false := by simpa using hx
      simp [List.lookup, hb]
    · by_cases hk : x = k₀
      · subst hk
        simp [List.lookup, h]
      · have hb : (x == k₀) = false := by simpa using hk
        simp [List.lookup, h, hb, dictSet_lookup_other rest k v x hx]

theorem providersOf_mem (ms : List DepModule) (x cap : String) :
    x ∈ providersOf ms cap ↔ ∃ m ∈ ms, m.name = x ∧ cap ∈ m.provides := by
  unfold providersOf
  rw [List.mem_flatMap]
  constructor
  · rintro ⟨m, hm, hx⟩
    rw [List.mem_map] at hx
    obtain ⟨c, hc, rfl⟩ := hx
    rw [List.mem_filter] at hc
    exact ⟨m, hm, rfl, by simpa [(by simpa using hc.2 : c = cap)] using hc.1⟩
  · rintro ⟨m, hm, rfl, hc⟩
    refine ⟨m, hm, ?_⟩
    rw [List.mem_map]
    exact ⟨cap, by simp [List.mem_filter, hc], rfl⟩

theorem registryEdges_mem (ms : List DepModule) (m : DepModule) (x : String) :
    x ∈ registryEdges ms m ↔
      x ≠ m.name ∧ ∃ cap ∈ m.requires, x ∈ providersOf ms cap := by
  unfold registryEdges
  rw [List.mem_flatMap]
  constructor
  · rintro ⟨cap, hcap, hx⟩
    rw [List.mem_filter] at hx
    exact ⟨by simpa using hx.2, cap, hcap, hx.1⟩
  · rintro ⟨hne, cap, hcap, hx⟩
    exact ⟨cap, hcap, by rw [List.mem_filter]; exact ⟨hx, by simpa using hne⟩⟩

/-- Looking up a module's entry in a graph built by repeated
`graph[name] = value` assignments, for distinct module names. -/
theorem foldl_dictSet_lookup (f : DepModule → List String) :
    ∀ (ms : List DepModule) (g₀ : Graph) (x : String),
      (∀ m ∈ ms, m.name ≠ x) →
      (ms.foldl (fun g m => dictSet g m.name (f m)) g₀).lookup x = g₀.lookup x
  | [], g₀, x, h => rfl
  | m :: rest, g₀, x, h => by
    rw [List.foldl_cons,
      foldl_dictSet_lookup f rest _ x fun m' hm' => h m' (List.mem_cons_of_mem m hm'),
      dictSet_lookup_other _ _ _ _ (Ne.symm (h m (List.mem_cons_self m rest)))]

theorem build_graph_lookup (f : DepModule → List String) :
    ∀ (ms : List DepModule) (g₀ : Graph),
      (ms.map DepModule.name).Nodup → ∀ M ∈ ms,
      (ms.foldl (fun g m => dictSet g m.name (f m)) g₀).lookup M.name = some (f M)
  | [], _, _, M, hM => absurd hM (List.not_mem_nil M)
  | m :: rest, g₀, hnd, M, hM => by
    rw [List.map_cons, List.nodup_cons] at hnd
    rcases List.mem_cons.mp hM with rfl | hM
    · rw [List.foldl_cons,
        foldl_dictSet_lookup f rest _ M.name
          (fun m' hm' h' => hnd.1 (h' ▸ List.mem_map_of_mem DepModule.name hm')),
        dictSet_lookup_self]
    · exact build_graph_lookup f rest _ hnd.2 M hM

/-! ## C5 — the two dependency-graph builders -/

/-- `C5` counterexample inputs: a module that requires and provides the
same capability, and a pair where one module requires two capabilities of
the same provider. -/
def c5selfMod : DepModule := ⟨"m", ["c"], ["c"]⟩

def c5provider : DepModule := ⟨"p", [], ["c", "d"]⟩

def c5consumer : DepModule := ⟨"n", ["c", "d"], []⟩

/-- C5 counterexample.  The claim says "the dependency-graph builder" (it
cites both `generate_module_registry.build_dependency_graph` and
`validate_modules.build_dependency_graph`) excludes self-edges and collapses
duplicate edges.  The validator's builder does neither: a module requiring
a capability it itself provides gets a self-edge, and two capabilities with
the same provider yield that provider twice.  (The registry builder does
exclude and collapse, shown alongside.) -/
theorem C5_counterexample :
    build_dependency_graph_validator [c5selfMod] = [("m", ["m"])] ∧
    "m" ∈ predsOf (build_dependency_graph_validator [c5selfMod]) "m" ∧
    build_dependency_graph_validator [c5provider, c5consumer] =
      [("p", []), ("n", ["p", "p"])] ∧
    ¬(predsOf (build_dependency_graph_validator [c5provider, c5consumer]) "n").Nodup ∧
    build_dependency_graph_registry [c5selfMod] = [("m", [])] ∧
    build_dependency_graph_registry [c5provider, c5consumer] =
      [("p", []), ("n", ["p"])] :=
  ⟨rfl, by decide, rfl, by decide, rfl, rfl⟩

/-- C5 amended.  For distinct module names: the *registry* builder
(`generate_module_registry.build_dependency_graph`) gives every module M an
edge list containing exactly the providers of M's required capabilities
other than M itself, without duplicates; the *validator* builder
(`validate_modules.build_dependency_graph`) gives M one edge per (required
capability, provider) occurrence — self-edges included and duplicates kept.
A provider of capability `cap` is exactly a module whose `provides` list
contains `cap`. -/
theorem C5_graph_edges_amended :
    (∀ (ms : List DepModule) (x cap : String),
      x ∈ providersOf ms cap ↔ ∃ m ∈ ms, m.name = x ∧ cap ∈ m.provides) ∧
    (∀ ms : List DepModule, (ms.map DepModule.name).Nodup →
      ∀ M ∈ ms, ∃ l,
        (build_dependency_graph_registry ms).lookup M.name = some l ∧ l.Nodup ∧
        ∀ x, x ∈ l ↔ x ≠ M.name ∧ ∃ cap ∈ M.requires, x ∈ providersOf ms cap) ∧
    (∀ ms : List DepModule, (ms.map DepModule.name).Nodup →
      ∀ M ∈ ms, ∃ l,
        (build_dependency_graph_validator ms).lookup M.name = some l ∧
        ∀ x, x ∈ l ↔ ∃ cap ∈ M.requires, x ∈ providersOf ms cap) := by
  refine ⟨providersOf_mem, fun ms hnd M hM => ?_, fun ms hnd M hM => ?_⟩
  · refine ⟨dedup (registryEdges ms M), ?_, nodup_dedup _, fun x => ?_⟩
    · exact build_graph_lookup (fun m => dedup (registryEdges ms m)) ms [] hnd M hM
    · rw [mem_dedup, registryEdges_mem]
  · refine ⟨M.requires.flatMap (fun req => providersOf ms req), ?_, fun x => ?_⟩
    · exact build_graph_lookup
        (fun m => m.requires.flatMap fun req => providersOf ms req) ms [] hnd M hM
    · rw [List.mem_flatMap]

/-! ## C9 — module discovery skips every underscore entry -/

/-- The nested test-fixture metadata under `_system/test_fixture/`. -/
def c9fixtureMeta : YDict := [("name", .vstr "test_fixture")]

def c9coolMeta : YDict := [("name", .vstr "sage_cooling")]

/-- The `_system` directory entry: no `module_info.yaml` of its own, a
`test_fixture` child directory carrying loadable metadata. -/
def c9sysEntry : Discovery.DirEntry :=
  .mk "_system" true none [.mk "test_fixture" true (some c9fixtureMeta) []]

def c9coolEntry : Discovery.DirEntry :=
  .mk "sage_cooling" true (some c9coolMeta) []

/-- C9 counterexample.  The claim says discovery skips `_`-prefixed entries
*except* the designated system directory, whose nested test-fixture
subdirectory is included in the discovered module list.  In the code both
`discover_modules` implementations skip every `_`-prefixed entry with no
exception and never recurse: on a modules directory holding `_system`
(with a loadable nested `test_fixture` module) and `sage_cooling`, the
discovered list is just the `sage_cooling` metadata and the nested fixture
metadata is absent. -/
theorem C9_counterexample :
    c9sysEntry.name = "_system" ∧ c9sysEntry.isDir = true ∧
    c9sysEntry.children.map Discovery.DirEntry.metadata = [some c9fixtureMeta] ∧
    discover_modules_registry [c9sysEntry, c9coolEntry] = [c9coolMeta] ∧
    c9fixtureMeta ∉ discover_modules_registry [c9sysEntry, c9coolEntry] ∧
    discover_modules_validator [c9sysEntry, c9coolEntry] =
      [("sage_cooling", some c9coolMeta)] :=
  ⟨rfl, rfl, rfl, rfl, by decide, rfl⟩

theorem discover_registry_foldl (l : List Discovery.DirEntry)
    (acc : List YDict) :
    l.foldl
      (fun acc e =>
        if ¬e.isDir then acc
        else if PyStr.pyStartsWith "_" e.name then acc
        else
          match e.metadata with
          | some m => acc ++ [m]
          | none => acc)
      acc =
    acc ++ ((l.filter fun e => e.isDir && ¬PyStr.pyStartsWith "_" e.name).filterMap
      Discovery.DirEntry.metadata) := by
  induction l generalizing acc with
  | nil => simp
  | cons e rest ih =>
    rw [List.foldl_cons, ih]
    by_cases hd : e.isDir
    · by_cases hu : PyStr.pyStartsWith "_" e.name
      · simp [hd, hu, List.filter_cons]
      · cases hm : e.metadata with
        | some m => simp [hd, hu, hm, List.filter_cons]
        | none => simp [hd, hu, hm, List.filter_cons]
    · simp [hd, List.filter_cons]

theorem discover_validator_foldl (l : List Discovery.DirEntry)
    (acc : List (String × Option YDict)) :
    l.foldl
      (fun acc e =>
        if ¬e.isDir then acc
        else if PyStr.pyStartsWith "_" e.name then acc
        else acc ++ [(e.name, e.metadata)])
      acc =
    acc ++ ((l.filter fun e => e.isDir && ¬PyStr.pyStartsWith "_" e.name).map
      fun e => (e.name, e.metadata)) := by
  induction l generalizing acc with
  | nil => simp
  | cons e rest ih =>
    rw [List.foldl_cons, ih]
    by_cases hd : e.isDir
    · by_cases hu : PyStr.pyStartsWith "_" e.name
      · simp [hd, hu, List.filter_cons]
      · simp [hd, hu, List.filter_cons]
    · simp [hd, List.filter_cons]

/-- C9 amended.  Module discovery scans the (sorted) modules directory and
keeps exactly the subdirectory entries whose name does not start with `_`
— with *no* exception for the system/test-fixture directory, and without
recursing into any entry: the registry variant keeps their loadable
metadata, the validator variant keeps every such entry with its load
result. -/
theorem C9_discovery_amended (entries : List Discovery.DirEntry) :
    discover_modules_registry entries =
      ((Discovery.sortByName entries).filter fun e =>
        e.isDir && ¬PyStr.pyStartsWith "_" e.name).filterMap
        Discovery.DirEntry.metadata ∧
    discover_modules_validator entries =
      ((Discovery.sortByName entries).filter fun e =>
        e.isDir && ¬PyStr.pyStartsWith "_" e.name).map
        fun e => (e.name, e.metadata) := by
  constructor
  · rw [Discovery.discover_modules_registry, discover_registry_foldl]
    simp
  · rw [Discovery.discover_modules_validator, discover_validator_foldl]
    simp

/-! ## C6 — the staleness hash check -/

def c6hash : String := "0123456789abcdef0123456789abcdef"

/-- Header lines with a matching embedded hash. -/
def c6goodLines : List String :=
  ["/* AUTO-GENERATED CODE - DO NOT EDIT", " *",
   " * Source MD5: 0123456789abcdef0123456789abcdef", " */"]

/-- Header lines with the marker but no `Source MD5:` line at all. -/
def c6noHashLines : List String :=
  ["/* AUTO-GENERATED CODE - DO NOT EDIT", " * an old-format header", " */"]

/-- C6 counterexample.  The claim states the hash check passes if and only
if every artifact's embedded hash equals the freshly computed hash.  An
artifact whose header contains no extractable hash is only recorded as
"missing hash" (a warning): the check still passes although the extracted
embedded hash (`""`) differs from the computed hash — and the artifact even
carries the `AUTO-GENERATED` marker, so the marker check passes too. -/
theorem C6_counterexample :
    (check_yaml_hashes c6hash [⟨"copy_to_output.inc", some c6noHashLines⟩]).1 = true ∧
    extract_yaml_hash_from_file ⟨"copy_to_output.inc", some c6noHashLines⟩ ≠ c6hash ∧
    ¬((check_yaml_hashes c6hash [⟨"copy_to_output.inc", some c6noHashLines⟩]).1 = true ↔
      ∀ f ∈ [(⟨"copy_to_output.inc", some c6noHashLines⟩ : GenFile)],
        extract_yaml_hash_from_file f = c6hash) ∧
    check_file_marker [⟨"copy_to_output.inc", some c6noHashLines⟩] = true :=
  ⟨rfl, by decide, by decide, rfl⟩

theorem check_hashes_foldl (h : String) (files : List GenFile)
    (acc : List String × List String) :
    files.foldl
      (fun (st : List String × List String) f =>
        match f.content with
        | none => (st.1 ++ [f.name], st.2)
        | some lines =>
          let embedded := extractScan (lines.take 20)
          if embedded = "" then (st.1, st.2 ++ [f.name])
          else if embedded ≠ h then (st.1 ++ [f.name], st.2)
          else st)
      acc =
    (acc.1 ++ (files.filter (isMismatch h)).map GenFile.name,
     acc.2 ++ (files.filter isMissingHash).map GenFile.name) := by
  induction files generalizing acc with
  | nil => simp
  | cons f rest ih =>
    rw [List.foldl_cons, ih]
    cases hc : f.content with
    | none => simp [isMismatch, isMissingHash, hc, List.filter_cons]
    | some lines =>
      by_cases he : extractScan (lines.take 20) = ""
      · simp [isMismatch, isMissingHash, hc, he, List.filter_cons]
      · by_cases hm : extractScan (lines.take 20) = h
        · have hne : ¬h = "" := hm ▸ he
          simp [isMismatch, isMissingHash, hc, he, hm, hne, List.filter_cons]
        · simp [isMismatch, isMissingHash, hc, he, hm, List.filter_cons]

/-- C6 amended.  The hash check passes iff the computed input hash is
non-empty, every artifact exists, and every *extractable* embedded hash
equals the computed hash; an artifact with no extractable embedded hash
only lands in the "missing hash" warning list and does not fail the check.
Every missing artifact and every artifact whose extracted hash differs
from the computed hash is reported by file name in the mismatch list. -/
theorem C6_hash_check_amended (h : String) (files : List GenFile) :
    ((check_yaml_hashes h files).1 = true ↔
      (h ≠ "" ∧ ∀ f ∈ files, ∃ ls, GenFile.content f = some ls ∧
        (extract_yaml_hash_from_file f = "" ∨ extract_yaml_hash_from_file f = h))) ∧
    (h ≠ "" →
      (check_yaml_hashes h files).2.1 = (files.filter (isMismatch h)).map GenFile.name ∧
      (check_yaml_hashes h files).2.2 = (files.filter isMissingHash).map GenFile.name) := by
  by_cases hh : h = ""
  · subst hh
    simp [check_yaml_hashes]
  · have hrun := check_hashes_foldl h files ([], [])
    constructor
    · rw [check_yaml_hashes, if_neg hh, hrun]
      simp only [List.nil_append, List.isEmpty_iff, List.map_eq_nil_iff,
        List.filter_eq_nil_iff]
      constructor
      · intro hall
        refine ⟨hh, fun f hf => ?_⟩
        have hmf := hall f hf
        cases hc : f.content with
        | none => simp [isMismatch, hc] at hmf
        | some ls =>
          refine ⟨ls, rfl, ?_⟩
          simp only [extract_yaml_hash_from_file, hc]
          by_cases he : extractScan (ls.take 20) = ""
          · exact Or.inl he
          · refine Or.inr ?_
            by_contra hne
            simp [isMismatch, hc, he, hne] at hmf
      · rintro ⟨-, hall⟩ f hf
        obtain ⟨ls, hc, hor⟩ := hall f hf
        simp only [extract_yaml_hash_from_file, hc] at hor
        rcases hor with he | he <;> simp [isMismatch, hc, he]
    · intro _
      rw [check_yaml_hashes, if_neg hh, hrun]
      simp

/-! ## C4 — the validator short-circuits between check stages -/

/-- A parameter with an invalid `type` (a genuine parameter-stage
violation). -/
def c4badParam : YValue :=
  .vdict [("name", .vstr "Eff"), ("type", .vstr "quadruple"),
    ("default", .vint 1), ("description", .vstr "efficiency")]

/-- A module carrying two independent violations: an invalid version
(`1.0`) and the invalid parameter above. -/
def c4badModule : YDict :=
  [("name", .vstr "sage_cooling"), ("display_name", .vstr "Cooling"),
   ("description", .vstr "d"), ("version", .vstr "1.0"), ("author", .vstr "a"),
   ("sources", .vlist []), ("headers", .vlist []),
   ("register_function", .vstr "sage_cooling_register"),
   ("dependencies", .vdict [("requires", .vlist []), ("provides", .vlist [])]),
   ("parameters", .vlist [c4badParam])]

/-- The same module with only the version corrected. -/
def c4fixedModule : YDict := dictSet c4badModule "version" (.vstr "1.0.0")

def c4dir : MDir := ⟨"src/modules/sage_cooling", "sage_cooling"⟩

/-- Two properties that are each invalid (bad `type`). -/
def c4badPropA : PropSpec := basicProp "A" "quadfloat" "u" "d" false

def c4badPropB : PropSpec := basicProp "B" "bogus" "u" "d" false

/-- C4 counterexample.  The claim says a single invocation runs ALL checks
and collects every finding.  `validate_module` on a module with an invalid
version *and* an invalid parameter records exactly one diagnostic — the
version error — and the parameter diagnostic never appears (fixing only
the version makes the parameter error surface, so the second violation is
real and independent).  `generate_properties.validate_properties` likewise
raises on the first invalid property only. -/
theorem C4_counterexample :
    validate_module c4dir c4badModule [] [] (fun _ => "") emptyResults false =
      (false, ⟨[⟨"sage_cooling", "ERROR", 1, .invalidVersion "1.0"⟩], []⟩) ∧
    (validate_module c4dir c4badModule [] [] (fun _ => "") emptyResults
        false).2.errors.length = 1 ∧
    (validate_module c4dir c4fixedModule [] [] (fun _ => "") emptyResults
        false).2.errors =
      [⟨"sage_cooling", "ERROR", 5, .paramInvalidType (.vstr "Eff") (.vstr "quadruple")⟩] ∧
    validate_properties [c4badPropA, c4badPropB] [] =
      .error (.invalidType "quadfloat" "A") :=
  ⟨rfl, rfl, rfl, rfl⟩

/-- C4 amended.  `validate_module` runs its check stages in order and
returns at the first failing stage: whenever the required-fields and
field-type stages pass without diagnostics but the version check fails,
the run stops with exactly the version diagnostic appended — no
later-stage diagnostic (parameters, files, register function) is
collected. -/
theorem C4_short_circuit_amended (module_dir : MDir) (module : YDict)
    (meta fs : List String) (contents : String → String)
    (r : ValidationResults) (verbose : Bool)
    (hu : pyTruthy (ygetD module "is_utility" (.vbool false)) = false)
    (h₁ : validate_required_fields module (moduleNameOf module module_dir) r = (true, r))
    (h₂ : validate_field_types module (moduleNameOf module module_dir) r = (true, r))
    (hv : isVersionString (ygetStr module "version" "") = false) :
    validate_module module_dir module meta fs contents r verbose =
      (false, add_error r (moduleNameOf module module_dir) 1
        (.invalidVersion (ygetStr module "version" ""))) := by
  simp [validate_module, hu, h₁, h₂, validate_version, hv]

/-- Witness for the amended C4 theorem at the concrete two-violation
module. -/
theorem C4_short_circuit_amended_witness :
    validate_module c4dir c4badModule [] [] (fun _ => "") emptyResults false =
      (false, add_error emptyResults "sage_cooling" 1 (.invalidVersion "1.0")) :=
  C4_short_circuit_amended c4dir c4badModule [] [] (fun _ => "") emptyResults
    false rfl rfl rfl rfl

/-! ## The topological-sort correctness development (for C1 and C2) -/

namespace DepGraph

/-- Well-formedness of the graphs both builders construct: distinct keys
(Python dict) and every predecessor name itself a key. -/
def WFGraph (g : Graph) : Prop :=
  (keysOf g).Nodup ∧ ∀ p ∈ g, ∀ x ∈ p.2, x ∈ keysOf g

/-- The value of a counter dict at a node (`0` when absent). -/
def cntVal (c : List (String × Nat)) (n : String) : Nat :=
  (c.lookup n).getD 0

/-- The total of all counters. -/
def sumCnt (c : List (String × Nat)) : Nat :=
  (c.map Prod.snd).sum

/-- The number of predecessor occurrences of `n` not yet finished, given
the finished set `D`. -/
def pendCount (g : Graph) (D : List String) (n : String) : Nat :=
  (predsOf g n).countP fun p => !D.contains p

/-- The elementary step of `done`: decrement one successor, recording it
when its counter reaches zero. -/
def kahnStep (st : List (String × Nat) × List String) (s : String) :
    List (String × Nat) × List String :=
  let r := decrOne st.1 s
  (r.1, if r.2 then st.2 ++ [s] else st.2)

theorem processNode_eq (g : Graph) (st : List (String × Nat) × List String)
    (m : String) : processNode g st m = (succsOf g m).foldl kahnStep st := rfl

theorem lookup_map_self {β : Type} (f : String → β) :
    ∀ (l : List String) (x : String),
      ((l.map fun n => (n, f n)).lookup x) = if x ∈ l then some (f x) else none
  | [], x => by simp
  | a :: rest, x => by
    by_cases h : x = a
    · subst h
      simp [List.lookup]
    · have hb : (x == a) = false := by simpa using h
      simp [List.lookup, hb, lookup_map_self f rest x, h]

theorem initialCounts_keys (g : Graph) :
    (initialCounts g).map Prod.fst = nodeOrder g := by
  rw [initialCounts, List.map_map]
  have h : (Prod.fst ∘ fun n : String => (n, npred0 g n)) = fun n : String => n := rfl
  rw [h]
  exact List.map_id' (nodeOrder g)

theorem cntVal_initialCounts (g : Graph) (n : String) :
    cntVal (initialCounts g) n = if n ∈ nodeOrder g then npred0 g n else 0 := by
  rw [cntVal, initialCounts, lookup_map_self]
  by_cases h : n ∈ nodeOrder g <;> simp [h]

theorem countP_true_eq_length (l : List String) :
    (l.countP fun p => !([] : List String).contains p) = l.length := by
  simp [List.countP_eq_length]

theorem pendCount_nil (g : Graph) (n : String) :
    pendCount g [] n = npred0 g n := by
  rw [pendCount, npred0, countP_true_eq_length]

theorem pendCount_zero_iff (g : Graph) (D : List String) (n : String) :
    pendCount g D n = 0 ↔ ∀ p ∈ predsOf g n, p ∈ D := by
  rw [pendCount, List.countP_eq_zero]
  simp

/-- Splitting off one new element of the finished set: the pending count
drops by exactly the multiplicity of that element. -/
theorem countP_extend (m : String) :
    ∀ (l D : List String), m ∉ D →
      (l.countP fun p => !D.contains p) =
        (l.countP fun p => !(D ++ [m]).contains p) + l.count m
  | [], D, hm => by simp
  | a :: l, D, hm => by
    rw [List.countP_cons, List.countP_cons, List.count_cons,
      countP_extend m l D hm]
    by_cases ha : a = m
    · subst ha
      have h₁ : (!D.contains a) = true := by simpa using hm
      have h₂ : (!(D ++ [a]).contains a) = false := by simp
      rw [h₁, h₂]
      simp
      omega
    · have h₂ : (!(D ++ [m]).contains a) = (!D.contains a) := by
        simp [ha]
      rw [h₂]
      have hb : (a == m) = false := by simpa using ha
      simp [hb]
      omega

theorem pendCount_extend (g : Graph) (D : List String) (m n : String)
    (hm : m ∉ D) :
    pendCount g D n = pendCount g (D ++ [m]) n + (predsOf g n).count m :=
  countP_extend m (predsOf g n) D hm

theorem pendCount_mono (g : Graph) (D E : List String) (n : String)
    (h : ∀ x ∈ D, x ∈ E) : pendCount g E n ≤ pendCount g D n := by
  apply List.countP_mono_left
  intro a _ ha
  have ha₂ : a ∉ E := by simpa using ha
  suffices hD : a ∉ D by simpa using hD
  exact fun hmem => ha₂ (h a hmem)

theorem lookup_none_of_not_mem_keys :
    ∀ (g : Graph) (x : String), x ∉ keysOf g → g.lookup x = none
  | [], x, _ => rfl
  | (k, v) :: rest, x, h => by
    rw [keysOf, List.map_cons, List.mem_cons] at h
    push_neg at h
    have hb : (x == k) = false := by simpa using h.1
    simp only [List.lookup, hb]
    exact lookup_none_of_not_mem_keys rest x (by simpa [keysOf] using h.2)

theorem succsOf_cons (k : String) (ps : List String) (rest : Graph) (m : String) :
    succsOf ((k, ps) :: rest) m =
      ((ps.filter (· = m)).map fun _ => k) ++ succsOf rest m := by
  simp [succsOf]

theorem predsOf_cons_self (k : String) (ps : List String) (rest : Graph) :
    predsOf ((k, ps) :: rest) k = ps := by
  simp [predsOf, List.lookup]

theorem predsOf_cons_ne (k : String) (ps : List String) (rest : Graph)
    (n : String) (h : n ≠ k) : predsOf ((k, ps) :: rest) n = predsOf rest n := by
  have hb : (n == k) = false := by simpa using h
  simp [predsOf, List.lookup, hb]

theorem count_map_const {α : Type} (k : String) (l : List α) :
    ((l.map fun _ => k).count k) = l.length := by
  induction l with
  | nil => rfl
  | cons a t ih => simp [List.count_cons, ih]

theorem filter_eq_length_count (m : String) (l : List String) :
    (l.filter (· = m)).length = l.count m := by
  induction l with
  | nil => rfl
  | cons a t ih =>
    by_cases h : a = m
    · subst h
      simp [List.count_cons, List.filter_cons, ih]
    · have hb : (a == m) = false := by simpa using h
      simp [List.filter_cons, List.count_cons, h, hb, ih]

theorem succsOf_count_zero (g : Graph) (m n : String)
    (h : n ∉ keysOf g) : (succsOf g m).count n = 0 := by
  rw [List.count_eq_zero]
  intro hmem
  rw [succsOf, List.mem_flatMap] at hmem
  obtain ⟨p, hp, hx⟩ := hmem
  rw [List.mem_map] at hx
  obtain ⟨c, _, rfl⟩ := hx
  exact h (List.mem_map_of_mem Prod.fst hp)

/-- With distinct keys, successor multiplicity transposes to predecessor
multiplicity. -/
theorem succsOf_count (m n : String) :
    ∀ g : Graph, (keysOf g).Nodup →
      (succsOf g m).count n = (predsOf g n).count m
  | [], _ => by simp [succsOf, predsOf, List.lookup]
  | (k, ps) :: rest, hnd => by
    rw [keysOf, List.map_cons, List.nodup_cons] at hnd
    rw [succsOf_cons, List.count_append, succsOf_count m n rest hnd.2]
    by_cases hk : k = n
    · subst hk
      rw [predsOf_cons_self]
      have h₀ : predsOf rest k = [] := by
        rw [predsOf, lookup_none_of_not_mem_keys rest k (by simpa [keysOf] using hnd.1)]
        rfl
      rw [h₀]
      simp only [List.count_nil, Nat.add_zero]
      rw [count_map_const, filter_eq_length_count]
    · rw [predsOf_cons_ne _ _ _ _ (Ne.symm hk)]
      have h₀ : ((ps.filter (· = m)).map fun _ => k).count n = 0 := by
        rw [List.count_eq_zero]
        intro hmem
        rw [List.mem_map] at hmem
        obtain ⟨_, _, h⟩ := hmem
        exact hk h
      rw [h₀, Nat.zero_add]

end DepGraph

namespace DepGraph

theorem decrOne_keys (n : String) :
    ∀ c : List (String × Nat), (decrOne c n).1.map Prod.fst = c.map Prod.fst
  | [] => rfl
  | (k, v) :: rest => by
    unfold decrOne
    by_cases h : k = n
    · simp [h]
    · simp [h, decrOne_keys n rest]

theorem cntVal_decrOne_self (n : String) :
    ∀ c : List (String × Nat), cntVal (decrOne c n).1 n = cntVal c n - 1
  | [] => rfl
  | (k, v) :: rest => by
    unfold decrOne
    by_cases h : k = n
    · subst h
      simp [cntVal, List.lookup]
    · have hb : (n == k) = false := by simpa using Ne.symm h
      simp only [h, if_false, cntVal, List.lookup, hb]
      exact cntVal_decrOne_self n rest

theorem cntVal_decrOne_other (n x : String) (hx : x ≠ n) :
    ∀ c : List (String × Nat), cntVal (decrOne c n).1 x = cntVal c x
  | [] => rfl
  | (k, v) :: rest => by
    unfold decrOne
    by_cases h : k = n
    · subst h
      have hb : (x == k) = false := by simpa using hx
      simp [cntVal, List.lookup, hb]
    · by_cases hk : x = k
      · subst hk
        simp [h, cntVal, List.lookup]
      · have hb : (x == k) = false := by simpa using hk
        simp only [h, if_false, cntVal, List.lookup, hb]
        exact cntVal_decrOne_other n x hx rest

theorem decrOne_flag (n : String) :
    ∀ c : List (String × Nat),
      ((decrOne c n).2 = true ↔ n ∈ c.map Prod.fst ∧ cntVal c n = 1)
  | [] => by simp [decrOne]
  | (k, v) :: rest => by
    unfold decrOne
    by_cases h : k = n
    · subst h
      simp [cntVal, List.lookup]
    · have hb : (n == k) = false := by simpa using Ne.symm h
      simp only [h, if_false]
      rw [decrOne_flag n rest]
      simp [cntVal, List.lookup, hb, Ne.symm h]

theorem sumCnt_decrOne (n : String) :
    ∀ c : List (String × Nat),
      sumCnt (decrOne c n).1 + (if (decrOne c n).2 then 1 else 0) ≤ sumCnt c
  | [] => by simp [decrOne, sumCnt]
  | (k, v) :: rest => by
    by_cases h : k = n
    · subst h
      have hd : decrOne ((k, v) :: rest) k =
          ((k, v - 1) :: rest, decide (v = 1)) := by
        simp [decrOne]
      rw [hd]
      simp only [sumCnt, List.map_cons, List.sum_cons]
      by_cases hv : v = 1
      · simp [hv]
        omega
      · have h₀ : (decide (v = 1)) = false := by simp [hv]
        rw [h₀]
        simp only [Bool.false_eq_true, if_false]
        omega
    · have hd : decrOne ((k, v) :: rest) n =
          ((k, v) :: (decrOne rest n).1, (decrOne rest n).2) := by
        simp [decrOne, h]
      rw [hd]
      simp only [sumCnt, List.map_cons, List.sum_cons]
      have := sumCnt_decrOne n rest
      rw [sumCnt, sumCnt] at this
      omega

/-- The full specification of one `done(m)` pass over an arbitrary
successor list `s`: keys preserved, counters decremented (with Python's
floor-at-zero matching truncated subtraction), and the newly-ready
collector extended by exactly the nodes whose counter passes through zero
during the pass. -/
theorem stepFold_spec :
    ∀ (s : List String) (c : List (String × Nat)) (acc : List String),
      (∀ n ∈ acc, cntVal c n = 0) → acc.Nodup →
      ((s.foldl kahnStep (c, acc)).1.map Prod.fst = c.map Prod.fst) ∧
      (∀ n, cntVal (s.foldl kahnStep (c, acc)).1 n = cntVal c n - s.count n) ∧
      (s.foldl kahnStep (c, acc)).2.Nodup ∧
      (∀ n, n ∈ (s.foldl kahnStep (c, acc)).2 ↔
        n ∈ acc ∨ (n ∈ c.map Prod.fst ∧ 1 ≤ cntVal c n ∧ cntVal c n ≤ s.count n)) ∧
      (sumCnt (s.foldl kahnStep (c, acc)).1 + (s.foldl kahnStep (c, acc)).2.length ≤
        sumCnt c + acc.length)
  | [], c, acc, hacc, haccnd => by
    refine ⟨rfl, fun n => by simp, haccnd, fun n => ?_, by simp⟩
    simp only [List.foldl_nil, List.count_nil, Nat.le_zero]
    constructor
    · exact Or.inl
    · rintro (h | ⟨_, h₁, h₂⟩)
      · exact h
      · omega
  | x :: s, c, acc, hacc, haccnd => by
    rcases hd : decrOne c x with ⟨c₁, fl⟩
    have hflag : fl = true ↔ x ∈ c.map Prod.fst ∧ cntVal c x = 1 := by
      have h := decrOne_flag x c
      rw [hd] at h
      exact h
    have hself : cntVal c₁ x = cntVal c x - 1 := by
      have h := cntVal_decrOne_self x c
      rw [hd] at h
      exact h
    have hother : ∀ n, n ≠ x → cntVal c₁ n = cntVal c n := by
      intro n hnx
      have h := cntVal_decrOne_other x n hnx c
      rw [hd] at h
      exact h
    have hkeys₁ : c₁.map Prod.fst = c.map Prod.fst := by
      have h := decrOne_keys x c
      rw [hd] at h
      exact h
    have hsum₁ : sumCnt c₁ + (if fl then 1 else 0) ≤ sumCnt c := by
      have h := sumCnt_decrOne x c
      rw [hd] at h
      exact h
    have hcx : (x :: s).count x = s.count x + 1 := by
      rw [List.count_cons]
      simp
    have hcn : ∀ n, n ≠ x → (x :: s).count n = s.count n := by
      intro n hnx
      have hb : (x == n) = false := by simpa using Ne.symm hnx
      rw [List.count_cons, hb]
      simp
    cases fl with
    | true =>
      obtain ⟨hxkey, hx1⟩ := hflag.mp rfl
      have hstep : kahnStep (c, acc) x = (c₁, acc ++ [x]) := by
        simp [kahnStep, hd]
      have hacc0' : ∀ n ∈ acc ++ [x], cntVal c₁ n = 0 := by
        intro n hn
        rcases List.mem_append.mp hn with hn | hn
        · by_cases hnx : n = x
          · subst hnx
            rw [hself, hx1]
          · rw [hother n hnx]
            exact hacc n hn
        · rw [List.mem_singleton] at hn
          subst hn
          rw [hself, hx1]
      have haccnd' : (acc ++ [x]).Nodup := by
        rw [List.nodup_append]
        refine ⟨haccnd, List.nodup_singleton x, ?_⟩
        intro a ha hax
        rw [List.mem_singleton] at hax
        subst hax
        have := hacc a ha
        omega
      obtain ⟨ihk, ihv, ihnd, ihmem, ihsum⟩ :=
        stepFold_spec s c₁ (acc ++ [x]) hacc0' haccnd'
      rw [List.foldl_cons, hstep]
      refine ⟨by rw [ihk, hkeys₁], fun n => ?_, ihnd, fun n => ?_, ?_⟩
      · rw [ihv n]
        by_cases hnx : n = x
        · subst hnx
          rw [hself, hcx]
          omega
        · rw [hother n hnx, hcn n hnx]
      · rw [ihmem n, hkeys₁]
        by_cases hnx : n = x
        · subst hnx
          rw [hself, hx1, hcx]
          simp only [List.mem_append, List.mem_singleton]
          constructor
          · intro _
            exact Or.inr ⟨hxkey, by omega, by omega⟩
          · intro _
            exact Or.inl (Or.inr (by simp))
        · rw [hother n hnx, hcn n hnx]
          simp only [List.mem_append, List.mem_singleton]
          constructor
          · rintro ((h | h) | h)
            · exact Or.inl h
            · exact absurd h hnx
            · exact Or.inr h
          · rintro (h | h)
            · exact Or.inl (Or.inl h)
            · exact Or.inr h
      · have hlen : (acc ++ [x]).length = acc.length + 1 := by simp
        calc sumCnt (s.foldl kahnStep (c₁, acc ++ [x])).1 +
              (s.foldl kahnStep (c₁, acc ++ [x])).2.length
            ≤ sumCnt c₁ + (acc ++ [x]).length := ihsum
          _ = sumCnt c₁ + 1 + acc.length := by rw [hlen]; omega
          _ ≤ sumCnt c + acc.length := by
              simp only [if_true] at hsum₁
              omega
    | false =>
      have hnotflag : ¬(x ∈ c.map Prod.fst ∧ cntVal c x = 1) := by
        intro h
        exact Bool.false_ne_true (hflag.mpr h)
      have hstep : kahnStep (c, acc) x = (c₁, acc) := by
        simp [kahnStep, hd]
      have hacc0' : ∀ n ∈ acc, cntVal c₁ n = 0 := by
        intro n hn
        by_cases hnx : n = x
        · subst hnx
          rw [hself, hacc n hn]
        · rw [hother n hnx]
          exact hacc n hn
      obtain ⟨ihk, ihv, ihnd, ihmem, ihsum⟩ :=
        stepFold_spec s c₁ acc hacc0' haccnd
      rw [List.foldl_cons, hstep]
      refine ⟨by rw [ihk, hkeys₁], fun n => ?_, ihnd, fun n => ?_, ?_⟩
      · rw [ihv n]
        by_cases hnx : n = x
        · subst hnx
          rw [hself, hcx]
          omega
        · rw [hother n hnx, hcn n hnx]
      · rw [ihmem n, hkeys₁]
        by_cases hnx : n = x
        · subst hnx
          rw [hself, hcx]
          constructor
          · rintro (h | ⟨hk, h₁, h₂⟩)
            · exact Or.inl h
            · refine Or.inr ⟨hk, by omega, ?_⟩
              by_cases hone : cntVal c n = 1
              · exact absurd ⟨hk, hone⟩ hnotflag
              · omega
          · rintro (h | ⟨hk, h₁, h₂⟩)
            · exact Or.inl h
            · by_cases hone : cntVal c n = 1
              · exact absurd ⟨hk, hone⟩ hnotflag
              · exact Or.inr ⟨hk, by omega, by omega⟩
        · rw [hother n hnx, hcn n hnx]
      · calc sumCnt (s.foldl kahnStep (c₁, acc)).1 +
              (s.foldl kahnStep (c₁, acc)).2.length
            ≤ sumCnt c₁ + acc.length := ihsum
          _ ≤ sumCnt c + acc.length := by
              simp only [Bool.false_eq_true, if_false] at hsum₁
              omega

end DepGraph

namespace DepGraph

/-- The specification of `done(*batch)`: processing a ready batch moves the
finished-set context from `E` to `E ++ batch` and collects as newly-ready
exactly the nodes whose pending count passes to zero across the batch
(characterised against the batch-start context `D` used for the
accumulator). -/
theorem batchFold_spec (g : Graph) (hknd : (keysOf g).Nodup) :
    ∀ (b E : List String) (c : List (String × Nat)) (acc D : List String),
      c.map Prod.fst = nodeOrder g →
      (∀ n, cntVal c n = pendCount g E n) →
      (∀ n ∈ b, n ∉ E) →
      b.Nodup →
      (∀ x ∈ D, x ∈ E) →
      (∀ n, n ∈ acc ↔
        n ∈ nodeOrder g ∧ 1 ≤ pendCount g D n ∧ pendCount g E n = 0) →
      acc.Nodup →
      ((b.foldl (processNode g) (c, acc)).1.map Prod.fst = nodeOrder g) ∧
      (∀ n, cntVal (b.foldl (processNode g) (c, acc)).1 n = pendCount g (E ++ b) n) ∧
      (b.foldl (processNode g) (c, acc)).2.Nodup ∧
      (∀ n, n ∈ (b.foldl (processNode g) (c, acc)).2 ↔
        n ∈ nodeOrder g ∧ 1 ≤ pendCount g D n ∧ pendCount g (E ++ b) n = 0) ∧
      (sumCnt (b.foldl (processNode g) (c, acc)).1 +
        (b.foldl (processNode g) (c, acc)).2.length ≤ sumCnt c + acc.length)
  | [], E, c, acc, D, hkeys, hc, hb, hbnd, hDE, hacc, haccnd => by
    refine ⟨hkeys, fun n => by simpa using hc n, haccnd, fun n => ?_, by simp⟩
    simpa using hacc n
  | m :: b, E, c, acc, D, hkeys, hc, hb, hbnd, hDE, hacc, haccnd => by
    have hmE : m ∉ E := hb m (List.mem_cons_self m b)
    have hext : ∀ n, pendCount g E n =
        pendCount g (E ++ [m]) n + (predsOf g n).count m :=
      fun n => pendCount_extend g E m n hmE
    have hacc0 : ∀ n ∈ acc, cntVal c n = 0 := by
      intro n hn
      rw [hc n]
      exact ((hacc n).mp hn).2.2
    obtain ⟨sk, sv, snd, smem, ssum⟩ :=
      stepFold_spec (succsOf g m) c acc hacc0 haccnd
    rw [← processNode_eq] at sk sv snd smem ssum
    have hkeys₂ : (processNode g (c, acc) m).1.map Prod.fst = nodeOrder g := by
      rw [sk, hkeys]
    have hc₂ : ∀ n, cntVal (processNode g (c, acc) m).1 n =
        pendCount g (E ++ [m]) n := by
      intro n
      rw [sv n, hc n, succsOf_count m n g hknd, hext n]
      omega
    have hacc₂ : ∀ n, n ∈ (processNode g (c, acc) m).2 ↔
        n ∈ nodeOrder g ∧ 1 ≤ pendCount g D n ∧ pendCount g (E ++ [m]) n = 0 := by
      intro n
      rw [smem n, hacc n, hkeys, hc n, succsOf_count m n g hknd]
      have he := hext n
      constructor
      · rintro (⟨h₁, h₂, h₃⟩ | ⟨h₁, h₂, h₃⟩)
        · exact ⟨h₁, h₂, by omega⟩
        · refine ⟨h₁, ?_, by omega⟩
          have hmon := pendCount_mono g D E n hDE
          omega
      · rintro ⟨h₁, h₂, h₃⟩
        by_cases h₀ : pendCount g E n = 0
        · exact Or.inl ⟨h₁, h₂, h₀⟩
        · exact Or.inr ⟨h₁, by omega, by omega⟩
    have hb₂ : ∀ n ∈ b, n ∉ E ++ [m] := by
      intro n hn
      rw [List.mem_append, List.mem_singleton]
      rintro (h | rfl)
      · exact hb n (List.mem_cons_of_mem m hn) h
      · rw [List.nodup_cons] at hbnd
        exact hbnd.1 hn
    have hDE₂ : ∀ x ∈ D, x ∈ E ++ [m] := by
      intro x hx
      rw [List.mem_append]
      exact Or.inl (hDE x hx)
    rw [List.nodup_cons] at hbnd
    obtain ⟨ihk, ihv, ihnd, ihmem, ihsum⟩ :=
      batchFold_spec g hknd b (E ++ [m]) (processNode g (c, acc) m).1
        (processNode g (c, acc) m).2 D hkeys₂ hc₂ hb₂ hbnd.2 hDE₂ hacc₂ snd
    have heq : (E ++ [m]) ++ b = E ++ m :: b := by simp
    rw [List.foldl_cons]
    have hpair : (processNode g (c, acc) m) =
        ((processNode g (c, acc) m).1, (processNode g (c, acc) m).2) := rfl
    rw [hpair]
    rw [heq] at ihv ihmem
    refine ⟨ihk, ihv, ihnd, ihmem, ?_⟩
    calc sumCnt (b.foldl (processNode g)
          ((processNode g (c, acc) m).1, (processNode g (c, acc) m).2)).1 +
          (b.foldl (processNode g)
            ((processNode g (c, acc) m).1, (processNode g (c, acc) m).2)).2.length
        ≤ sumCnt (processNode g (c, acc) m).1 +
            (processNode g (c, acc) m).2.length := ihsum
      _ ≤ sumCnt c + acc.length := ssum

end DepGraph

namespace DepGraph

/-- The master invariant of the `static_order` loop: assuming the counter
dict tracks pending predecessor counts against the finished set `D` and
the ready list is exactly the unfinished zero-pending nodes, the emitted
sequence is duplicate-free, consists of unfinished registered nodes, every
emitted node has all its predecessors finished or emitted earlier, and —
when the fuel exceeds the measure `Σ counters + |ready|` — every
registered node left unemitted has an unemitted unfinished predecessor. -/
theorem kahnRun_spec (g : Graph) (hknd : (keysOf g).Nodup) :
    ∀ (fuel : Nat) (c : List (String × Nat)) (ready D : List String),
      c.map Prod.fst = nodeOrder g →
      (∀ n, cntVal c n = pendCount g D n) →
      (∀ n, n ∈ ready ↔ n ∈ nodeOrder g ∧ n ∉ D ∧ pendCount g D n = 0) →
      ready.Nodup →
      (∀ n ∈ D, ∀ p ∈ predsOf g n, p ∈ D) →
      (kahnRun g fuel c ready).Nodup ∧
      (∀ n ∈ kahnRun g fuel c ready, n ∈ nodeOrder g ∧ n ∉ D) ∧
      (∀ n l₁ l₂, kahnRun g fuel c ready = l₁ ++ n :: l₂ →
        ∀ p ∈ predsOf g n, p ∈ D ∨ p ∈ l₁) ∧
      (sumCnt c + ready.length < fuel →
        ∀ n ∈ nodeOrder g, n ∉ D → n ∉ kahnRun g fuel c ready →
          ∃ p ∈ predsOf g n, p ∉ D ∧ p ∉ kahnRun g fuel c ready)
  | 0, c, ready, D, hkeys, hc, hready, hrnd, hdone => by
    refine ⟨by simp [kahnRun], by simp [kahnRun], ?_, by simp [kahnRun]⟩
    intro n l₁ l₂ h
    exact absurd h (by simp [kahnRun])
  | fuel + 1, c, ready, D, hkeys, hc, hready, hrnd, hdone => by
    by_cases hr : ready = []
    · subst hr
      have hout : kahnRun g (fuel + 1) c [] = [] := by rw [kahnRun, if_pos rfl]
      refine ⟨by simp [hout], by simp [hout], ?_, ?_⟩
      · intro n l₁ l₂ h
        rw [hout] at h
        exact absurd h (by simp)
      · intro _ n hn hnD hno
        have hnr : n ∉ ([] : List String) := by simp
        have hpend : pendCount g D n ≠ 0 := by
          intro h0
          exact hnr ((hready n).mpr ⟨hn, hnD, h0⟩)
        have hex : ¬ ∀ p ∈ predsOf g n, p ∈ D := by
          intro hall
          exact hpend ((pendCount_zero_iff g D n).mpr hall)
        push_neg at hex
        obtain ⟨p, hp, hpD⟩ := hex
        exact ⟨p, hp, hpD, by simp [hout]⟩
    · have hout : kahnRun g (fuel + 1) c ready =
          ready ++ kahnRun g fuel (processBatch g ready c).1
            (processBatch g ready c).2 := by
        rw [kahnRun, if_neg hr]
      have hpb : processBatch g ready c = ready.foldl (processNode g) (c, []) := rfl
      have hrD : ∀ n ∈ ready, n ∉ D := fun n hn => ((hready n).mp hn).2.1
      have hacc0 : ∀ n, n ∈ ([] : List String) ↔
          n ∈ nodeOrder g ∧ 1 ≤ pendCount g D n ∧ pendCount g D n = 0 := by
        intro n
        constructor
        · intro h; exact absurd h (by simp)
        · rintro ⟨_, h₁, h₂⟩; omega
      obtain ⟨bk, bv, bnd, bmem, bsum⟩ :=
        batchFold_spec g hknd ready D c [] D hkeys hc hrD hrnd
          (fun x hx => hx) hacc0 (by simp)
      rw [← hpb] at bk bv bnd bmem bsum
      have hreadyD : ∀ n ∈ ready, pendCount g D n = 0 :=
        fun n hn => ((hready n).mp hn).2.2
      have hdone' : ∀ n ∈ D ++ ready, ∀ p ∈ predsOf g n, p ∈ D ++ ready := by
        intro n hn p hp
        rw [List.mem_append] at hn
        rw [List.mem_append]
        rcases hn with hn | hn
        · exact Or.inl (hdone n hn p hp)
        · exact Or.inl ((pendCount_zero_iff g D n).mp (hreadyD n hn) p hp)
      have hready' : ∀ n, n ∈ (processBatch g ready c).2 ↔
          n ∈ nodeOrder g ∧ n ∉ D ++ ready ∧ pendCount g (D ++ ready) n = 0 := by
        intro n
        rw [bmem n]
        constructor
        · rintro ⟨h₁, h₂, h₃⟩
          refine ⟨h₁, ?_, h₃⟩
          rw [List.mem_append]
          rintro (hn | hn)
          · have := (pendCount_zero_iff g D n).mpr (hdone n hn)
            omega
          · have := hreadyD n hn
            omega
        · rintro ⟨h₁, h₂, h₃⟩
          refine ⟨h₁, ?_, h₃⟩
          rw [List.mem_append] at h₂
          push_neg at h₂
          by_contra hlt
          have h0 : pendCount g D n = 0 := by omega
          exact h₂.2 ((hready n).mpr ⟨h₁, h₂.1, h0⟩)
      obtain ⟨ihnd, ihmem, ihdec, ihstall⟩ :=
        kahnRun_spec g hknd fuel (processBatch g ready c).1
          (processBatch g ready c).2 (D ++ ready) bk bv hready' bnd hdone'
      have hrsub : ∀ a ∈ ready, a ∈ D ++ ready := by
        intro a ha; rw [List.mem_append]; exact Or.inr ha
      refine ⟨?_, ?_, ?_, ?_⟩
      · rw [hout, List.nodup_append]
        refine ⟨hrnd, ihnd, ?_⟩
        intro a ha hao
        exact (ihmem a hao).2 (hrsub a ha)
      · intro n hn
        rw [hout, List.mem_append] at hn
        rcases hn with hn | hn
        · exact ⟨((hready n).mp hn).1, ((hready n).mp hn).2.1⟩
        · refine ⟨(ihmem n hn).1, ?_⟩
          intro hD
          exact (ihmem n hn).2 (by rw [List.mem_append]; exact Or.inl hD)
      · intro n l₁ l₂ h
        rw [hout] at h
        rcases List.append_eq_append_iff.mp h with ⟨a, ha₁, ha₂⟩ | ⟨v, hv₁, hv₂⟩
        · intro p hp
          rcases ihdec n a l₂ ha₂ p hp with hpD | hpa
          · rw [List.mem_append] at hpD
            rcases hpD with hpD | hpr
            · exact Or.inl hpD
            · exact Or.inr (by rw [ha₁, List.mem_append]; exact Or.inl hpr)
          · exact Or.inr (by rw [ha₁, List.mem_append]; exact Or.inr hpa)
        · match v, hv₂ with
          | [], hv₂ =>
            intro p hp
            have hl₁ : l₁ = ready := by simpa using hv₁.symm
            rcases ihdec n [] l₂ (by simpa using hv₂.symm) p hp with hpD | hpa
            · rw [List.mem_append] at hpD
              rcases hpD with hpD | hpr
              · exact Or.inl hpD
              · exact Or.inr (hl₁ ▸ hpr)
            · exact absurd hpa (by simp)
          | x :: v, hv₂ =>
            intro p hp
            have hnx : n = x := by
              have := hv₂
              simp at this
              exact this.1
            have hnready : n ∈ ready := by
              rw [hv₁, hnx]
              exact List.mem_append.mpr (Or.inr (List.mem_cons_self x v))
            exact Or.inl ((pendCount_zero_iff g D n).mp (hreadyD n hnready) p hp)
      · intro hm n hn hnD hno
        have hrlen : 1 ≤ ready.length := by
          cases ready with
          | nil => exact absurd rfl hr
          | cons a t => simp
        have hm' : sumCnt (processBatch g ready c).1 +
            (processBatch g ready c).2.length < fuel := by
          have hbs : sumCnt (processBatch g ready c).1 +
              (processBatch g ready c).2.length ≤ sumCnt c := by simpa using bsum
          omega
        rw [hout, List.mem_append] at hno
        push_neg at hno
        have hnD' : n ∉ D ++ ready := by
          rw [List.mem_append]
          rintro (h | h)
          · exact hnD h
          · exact hno.1 h
        obtain ⟨p, hp, hpD', hpo⟩ := ihstall hm' n hn hnD' hno.2
        rw [List.mem_append] at hpD'
        push_neg at hpD'
        refine ⟨p, hp, hpD'.1, ?_⟩
        rw [hout, List.mem_append]
        rintro (h | h)
        · exact hpD'.2 h
        · exact hpo h

end DepGraph

namespace DepGraph

theorem lookup_some_mem :
    ∀ (g : Graph) (n : String) (ps : List String),
      g.lookup n = some ps → (n, ps) ∈ g
  | [], n, ps, h => by simp [List.lookup] at h
  | (k, v) :: rest, n, ps, h => by
    by_cases hk : n = k
    · subst hk
      have hv : v = ps := by simpa [List.lookup] using h
      subst hv
      exact List.mem_cons_self _ _
    · have hb : (n == k) = false := by simpa using hk
      rw [List.lookup, hb] at h
      exact List.mem_cons_of_mem _ (lookup_some_mem rest n ps h)

theorem mem_keys_of_lookup_some (g : Graph) (n : String) (ps : List String)
    (h : g.lookup n = some ps) : n ∈ keysOf g := by
  by_contra hn
  rw [lookup_none_of_not_mem_keys g n hn] at h
  exact absurd h (by simp)

/-- A node with a predecessor occurrence is a key of the graph. -/
theorem mem_keys_of_mem_preds (g : Graph) (n p : String)
    (h : p ∈ predsOf g n) : n ∈ keysOf g := by
  rcases hl : g.lookup n with _ | ps
  · rw [predsOf, hl] at h
    exact absurd h (by simp)
  · exact mem_keys_of_lookup_some g n ps hl

/-- In a well-formed graph every predecessor is itself a key. -/
theorem preds_mem_keys_of_wf (g : Graph) (hwf : WFGraph g) (n p : String)
    (h : p ∈ predsOf g n) : p ∈ keysOf g := by
  rcases hl : g.lookup n with _ | ps
  · rw [predsOf, hl] at h
    exact absurd h (by simp)
  · rw [predsOf, hl] at h
    exact hwf.2 (n, ps) (lookup_some_mem g n ps hl) p (by simpa using h)

theorem mem_nodeOrder_aux :
    ∀ (g : Graph) (acc : List String) (x : String),
      x ∈ g.foldl (fun acc p => p.2.foldl addNew (addNew acc p.1)) acc ↔
        x ∈ acc ∨ ∃ p ∈ g, x = p.1 ∨ x ∈ p.2
  | [], acc, x => by simp
  | (k, ps) :: rest, acc, x => by
    rw [List.foldl_cons, mem_nodeOrder_aux rest _ x, mem_foldl_addNew, mem_addNew]
    simp only [List.mem_cons]
    constructor
    · rintro (((h | h) | h) | ⟨p, hp, h⟩)
      · exact Or.inl h
      · exact Or.inr ⟨(k, ps), Or.inl rfl, Or.inl h⟩
      · exact Or.inr ⟨(k, ps), Or.inl rfl, Or.inr h⟩
      · exact Or.inr ⟨p, Or.inr hp, h⟩
    · rintro (h | ⟨p, (rfl | hp), h⟩)
      · exact Or.inl (Or.inl (Or.inl h))
      · rcases h with h | h
        · exact Or.inl (Or.inl (Or.inr h))
        · exact Or.inl (Or.inr h)
      · exact Or.inr ⟨p, hp, h⟩

/-- The registered nodes are the keys together with all predecessors. -/
theorem mem_nodeOrder (g : Graph) (x : String) :
    x ∈ nodeOrder g ↔ ∃ p ∈ g, x = p.1 ∨ x ∈ p.2 := by
  rw [nodeOrder, mem_nodeOrder_aux]
  simp

theorem keys_subset_nodeOrder (g : Graph) (x : String) (h : x ∈ keysOf g) :
    x ∈ nodeOrder g := by
  rw [keysOf, List.mem_map] at h
  obtain ⟨p, hp, rfl⟩ := h
  exact (mem_nodeOrder g _).mpr ⟨p, hp, Or.inl rfl⟩

theorem nodup_nodeOrder_aux :
    ∀ (g : Graph) (acc : List String), acc.Nodup →
      (g.foldl (fun acc p => p.2.foldl addNew (addNew acc p.1)) acc).Nodup
  | [], acc, h => h
  | (k, ps) :: rest, acc, h =>
    nodup_nodeOrder_aux rest _ (nodup_foldl_addNew ps _ (nodup_addNew acc k h))

theorem nodup_nodeOrder (g : Graph) : (nodeOrder g).Nodup :=
  nodup_nodeOrder_aux g [] List.nodup_nil

theorem npred0_of_not_key (g : Graph) (n : String) (h : n ∉ keysOf g) :
    npred0 g n = 0 := by
  rw [npred0, predsOf, lookup_none_of_not_mem_keys g n h]
  rfl

theorem sum_map_add (f₁ f₂ : String → Nat) :
    ∀ L : List String,
      (L.map fun n => f₁ n + f₂ n).sum = (L.map f₁).sum + (L.map f₂).sum
  | [] => rfl
  | a :: t => by
    simp only [List.map_cons, List.sum_cons, sum_map_add f₁ f₂ t]
    omega

theorem sum_map_ite_zero (k : String) (v : Nat) :
    ∀ L : List String, k ∉ L →
      (L.map fun n => if n = k then v else 0).sum = 0
  | [], _ => rfl
  | a :: t, h => by
    rw [List.mem_cons] at h
    push_neg at h
    have ha : ¬ a = k := fun hc => h.1 hc.symm
    simp only [List.map_cons, List.sum_cons, if_neg ha,
      sum_map_ite_zero k v t h.2]

theorem sum_map_ite_le (k : String) (v : Nat) :
    ∀ L : List String, L.Nodup →
      (L.map fun n => if n = k then v else 0).sum ≤ v
  | [], _ => by simp
  | a :: t, h => by
    rw [List.nodup_cons] at h
    by_cases ha : a = k
    · subst ha
      simp only [List.map_cons, List.sum_cons, if_pos rfl,
        sum_map_ite_zero a v t h.1]
      simp
    · simp only [List.map_cons, List.sum_cons, if_neg ha]
      have := sum_map_ite_le k v t h.2
      omega

theorem sum_npred0_le :
    ∀ (g : Graph), (keysOf g).Nodup → ∀ (L : List String), L.Nodup →
      (L.map (npred0 g)).sum ≤ (g.map fun p => p.2.length).sum
  | [], _, L, _ => by
    have h : L.map (npred0 []) = L.map fun _ => 0 := by
      apply List.map_congr_left
      intro a _
      rfl
    simp [h]
  | (k, ps) :: rest, hnd, L, hL => by
    rw [keysOf, List.map_cons, List.nodup_cons] at hnd
    have hpt : ∀ n ∈ L, npred0 ((k, ps) :: rest) n ≤
        (if n = k then ps.length else 0) + npred0 rest n := by
      intro n _
      by_cases hn : n = k
      · subst hn
        rw [npred0, predsOf_cons_self, if_pos rfl]
        omega
      · rw [npred0, predsOf_cons_ne k ps rest n hn, if_neg hn]
        exact Nat.le_add_left _ _
    calc (L.map (npred0 ((k, ps) :: rest))).sum
        ≤ (L.map fun n => (if n = k then ps.length else 0) + npred0 rest n).sum :=
          List.sum_le_sum hpt
      _ = (L.map fun n => if n = k then ps.length else 0).sum +
            (L.map (npred0 rest)).sum := sum_map_add _ _ L
      _ ≤ ps.length + (rest.map fun p => p.2.length).sum := by
          have h₁ := sum_map_ite_le k ps.length L hL
          have h₂ := sum_npred0_le rest (by simpa [keysOf] using hnd.2) L hL
          omega
      _ = (((k, ps) :: rest).map fun p => p.2.length).sum := by simp

theorem measure_lt_kahnFuel (g : Graph) (hknd : (keysOf g).Nodup) :
    sumCnt (initialCounts g) + (initialReady g).length < kahnFuel g := by
  have h₁ : sumCnt (initialCounts g) = ((nodeOrder g).map (npred0 g)).sum := by
    rw [sumCnt, initialCounts, List.map_map]
    rfl
  have h₂ := sum_npred0_le g hknd (nodeOrder g) (nodup_nodeOrder g)
  have h₃ : (initialReady g).length ≤ (nodeOrder g).length :=
    List.length_filter_le _ _
  rw [h₁, kahnFuel]
  omega

/-- The `static_order` loop from the `prepare()` state: a duplicate-free
subsequence of the registered nodes, every emitted node preceded by all of
its predecessors, and every unemitted node kept back by an unemitted
predecessor. -/
theorem kahnOrder_spec (g : Graph) (hknd : (keysOf g).Nodup) :
    (kahnOrder g).Nodup ∧
    (∀ n ∈ kahnOrder g, n ∈ nodeOrder g) ∧
    (∀ n l₁ l₂, kahnOrder g = l₁ ++ n :: l₂ → ∀ p ∈ predsOf g n, p ∈ l₁) ∧
    (∀ n ∈ nodeOrder g, n ∉ kahnOrder g →
      ∃ p ∈ predsOf g n, p ∉ kahnOrder g) := by
  have hc : ∀ n, cntVal (initialCounts g) n = pendCount g [] n := by
    intro n
    rw [cntVal_initialCounts, pendCount_nil]
    by_cases h : n ∈ nodeOrder g
    · rw [if_pos h]
    · rw [if_neg h, npred0_of_not_key g n fun hk => h (keys_subset_nodeOrder g n hk)]
  have hready : ∀ n, n ∈ initialReady g ↔
      n ∈ nodeOrder g ∧ n ∉ ([] : List String) ∧ pendCount g [] n = 0 := by
    intro n
    rw [initialReady, List.mem_filter, pendCount_nil]
    simp
  obtain ⟨h₁, h₂, h₃, h₄⟩ :=
    kahnRun_spec g hknd (kahnFuel g) (initialCounts g) (initialReady g) []
      (initialCounts_keys g) hc hready
      ((nodup_nodeOrder g).filter _)
      (by intro n hn; exact absurd hn (by simp))
  refine ⟨h₁, fun n hn => (h₂ n hn).1, ?_, ?_⟩
  · intro n l₁ l₂ hdec p hp
    rcases h₃ n l₁ l₂ hdec p hp with h | h
    · exact absurd h (by simp)
    · exact h
  · intro n hn hno
    obtain ⟨p, hp, _, hpo⟩ :=
      h₄ (measure_lt_kahnFuel g hknd) n hn (by simp) hno
    exact ⟨p, hp, hpo⟩

theorem transGen_of_chain {R : String → String → Prop} :
    ∀ (l : List String) (a b : String), List.Chain R a l → b ∈ l →
      Relation.TransGen R a b
  | [], a, b, _, hb => absurd hb (by simp)
  | c :: t, a, b, hch, hb => by
    rw [List.chain_cons] at hch
    rcases List.mem_cons.mp hb with rfl | hb
    · exact Relation.TransGen.single hch.1
    · exact Relation.TransGen.head hch.1 (transGen_of_chain t c b hch.2 hb)

theorem transGen_to_getLast {R : String → String → Prop} :
    ∀ (l : List String) (a b : String), List.Chain R a l →
      l.getLast? = some b → Relation.TransGen R a b
  | [], a, b, _, hl => by simp at hl
  | [c], a, b, hch, hl => by
    rw [List.chain_cons] at hch
    have hb : b = c := by simpa using hl.symm
    subst hb
    exact Relation.TransGen.single hch.1
  | c :: d :: t, a, b, hch, hl => by
    rw [List.chain_cons] at hch
    rw [List.getLast?_cons_cons] at hl
    exact Relation.TransGen.head hch.1 (transGen_to_getLast (d :: t) c b hch.2 hl)

/-- Every node of a closed chain (first = last, length ≥ 2) lies on a
genuine cycle of the relation. -/
theorem loop_of_closed_chain {R : String → String → Prop} (P : List String)
    (hch : List.Chain' R P) (hhl : P.head? = P.getLast?) (hlen : 2 ≤ P.length) :
    ∀ a ∈ P, Relation.TransGen R a a := by
  match P, hch, hhl, hlen with
  | h :: T, hch, hhl, hlen =>
    have hT : T ≠ [] := by
      cases T with
      | nil => simp at hlen
      | cons x xs => simp
    have hchain : List.Chain R h T := hch
    have hlast : T.getLast? = some h := by
      have h₁ : (h :: T).getLast? = T.getLast? := by
        cases T with
        | nil => exact absurd rfl hT
        | cons x xs => rw [List.getLast?_cons_cons]
      rw [h₁] at hhl
      exact hhl.symm.trans (by simp)
    have hloophead : Relation.TransGen R h h :=
      transGen_to_getLast T h h hchain hlast
    intro a ha
    rcases List.mem_cons.mp ha with rfl | haT
    · exact hloophead
    · obtain ⟨u, v, rfl⟩ := List.append_of_mem haT
      rw [List.chain_split] at hchain
      have hha : Relation.TransGen R h a :=
        transGen_of_chain (u ++ [a]) h a hchain.1 (by simp)
      cases v with
      | nil =>
        have hah : a = h := by
          have h₃ : (u ++ [a]).getLast? = some h := by
            simpa using hlast
          simpa using h₃
        exact hah ▸ hha
      | cons w ws =>
        have hvlast : (w :: ws).getLast? = some h := by
          have hz : (w :: ws).getLast? = some ((w :: ws).getLast (by simp)) :=
            List.getLast?_eq_getLast _ _
          have h₂ : (u ++ a :: w :: ws).getLast? = (w :: ws).getLast? := by
            rw [List.getLast?_append, List.getLast?_cons_cons, hz]
            rfl
          rw [h₂] at hlast
          exact hlast
        have hah : Relation.TransGen R a h :=
          transGen_to_getLast (w :: ws) a h hchain.2 hvlast
        exact hah.trans hha

theorem dropWhile_ne_decomp :
    ∀ (l : List String) (c : String), c ∈ l →
      ∃ t, l.dropWhile (· ≠ c) = c :: t
  | [], c, h => absurd h (by simp)
  | a :: l, c, h => by
    by_cases ha : a = c
    · subst ha
      refine ⟨l, ?_⟩
      rw [List.dropWhile_cons, if_neg (by simp)]
    · have hc : c ∈ l := by
        rcases List.mem_cons.mp h with rfl | h
        · exact absurd rfl ha
        · exact h
      obtain ⟨t, ht⟩ := dropWhile_ne_decomp l c hc
      refine ⟨t, ?_⟩
      rw [List.dropWhile_cons, if_pos (by simp [ha]), ht]

/-- The backward predecessor walk inside a stalled set closed under
"some predecessor is stalled" terminates at a repeated node and returns a
closed predecessor chain of length at least two inside the stalled set. -/
theorem cycleWalk_spec (g : Graph) (rem : List String)
    (hcl : ∀ n ∈ rem, ∃ p ∈ predsOf g n, p ∈ rem) :
    ∀ (fuel : Nat) (visited : List String) (cur : String),
      cur ∈ rem → visited.Nodup → (∀ v ∈ visited, v ∈ rem) →
      List.Chain' (fun a b => b ∈ predsOf g a) (visited ++ [cur]) →
      rem.length + 1 ≤ fuel + visited.length →
      (∀ x ∈ cycleWalk g rem fuel visited cur, x ∈ rem) ∧
      2 ≤ (cycleWalk g rem fuel visited cur).length ∧
      (cycleWalk g rem fuel visited cur).head? =
        (cycleWalk g rem fuel visited cur).getLast? ∧
      List.Chain' (fun a b => b ∈ predsOf g a) (cycleWalk g rem fuel visited cur)
  | 0, visited, cur, hcur, hvnd, hvrem, hchain, hfuel => by
    exfalso
    have hsub : List.Subperm visited rem := hvnd.subperm fun v hv => hvrem v hv
    have := hsub.length_le
    omega
  | fuel + 1, visited, cur, hcur, hvnd, hvrem, hchain, hfuel => by
    by_cases hin : cur ∈ visited
    · have hres : cycleWalk g rem (fuel + 1) visited cur =
          visited.dropWhile (· ≠ cur) ++ [cur] := by
        rw [cycleWalk, if_pos hin]
      obtain ⟨t, ht⟩ := dropWhile_ne_decomp visited cur hin
      refine ⟨?_, ?_, ?_, ?_⟩
      · intro x hx
        rw [hres, List.mem_append] at hx
        rcases hx with hx | hx
        · exact hvrem x ((List.dropWhile_sublist _).subset hx)
        · rw [List.mem_singleton] at hx
          exact hx ▸ hcur
      · rw [hres, ht]
        simp
      · rw [hres, ht, List.getLast?_concat]
        simp
      · have hsplit : visited.takeWhile (· ≠ cur) ++
            (visited.dropWhile (· ≠ cur) ++ [cur]) = visited ++ [cur] := by
          rw [← List.append_assoc, List.takeWhile_append_dropWhile]
        rw [← hsplit] at hchain
        rw [hres]
        exact (List.chain'_append.mp hchain).2.1
    · obtain ⟨p, hsp⟩ : ∃ p, stepPred g rem cur = some p := by
        obtain ⟨p, hp, hpr⟩ := hcl cur hcur
        rcases hsp : stepPred g rem cur with _ | q
        · rw [stepPred] at hsp
          exact absurd (by simpa using hpr) (List.find?_eq_none.mp hsp p hp)
        · exact ⟨q, rfl⟩
      have hsp' : (predsOf g cur).find? (fun x => x ∈ rem) = some p := hsp
      have hpmem : p ∈ predsOf g cur := List.mem_of_find?_eq_some hsp'
      have hprem : p ∈ rem := by
        have := List.find?_some hsp'
        simpa using this
      have hres : cycleWalk g rem (fuel + 1) visited cur =
          cycleWalk g rem fuel (visited ++ [cur]) p := by
        rw [cycleWalk, if_neg hin, hsp]
      have hvnd' : (visited ++ [cur]).Nodup := by
        rw [List.nodup_append]
        exact ⟨hvnd, List.nodup_singleton cur, by simpa using hin⟩
      have hvrem' : ∀ v ∈ visited ++ [cur], v ∈ rem := by
        intro v hv
        rw [List.mem_append] at hv
        rcases hv with hv | hv
        · exact hvrem v hv
        · rw [List.mem_singleton] at hv
          exact hv ▸ hcur
      have hchain' : List.Chain' (fun a b => b ∈ predsOf g a)
          ((visited ++ [cur]) ++ [p]) := by
        rw [List.chain'_append]
        refine ⟨hchain, by simp, ?_⟩
        intro x hx y hy
        have hxc : cur = x := by simpa using hx
        have hyp : p = y := by simpa using hy
        rw [← hxc, ← hyp]
        exact hpmem
      have hfuel' : rem.length + 1 ≤ fuel + (visited ++ [cur]).length := by
        rw [List.length_append]
        simp only [List.length_singleton]
        omega
      rw [hres]
      exact cycleWalk_spec g rem hcl fuel (visited ++ [cur]) p hprem hvnd'
        hvrem' hchain' hfuel'

/-- The `CycleError` payload built from a nonempty stalled set closed under
"some predecessor is stalled" is a genuine cycle: a closed `edgeRel`-chain
of length at least two inside the stalled set. -/
theorem extractCycle_spec (g : Graph) (rem : List String) (hne : rem ≠ [])
    (hcl : ∀ n ∈ rem, ∃ p ∈ predsOf g n, p ∈ rem) :
    (∀ x ∈ extractCycle g rem, x ∈ rem) ∧
    2 ≤ (extractCycle g rem).length ∧
    (extractCycle g rem).head? = (extractCycle g rem).getLast? ∧
    List.Chain' (edgeRel g) (extractCycle g rem) := by
  match rem, hne, hcl with
  | r :: rest, _, hcl =>
    obtain ⟨h₁, h₂, h₃, h₄⟩ :=
      cycleWalk_spec g (r :: rest) hcl ((r :: rest).length + 1) [] r
        (List.mem_cons_self r rest) List.nodup_nil
        (by intro v hv; exact absurd hv (by simp))
        (by simp) (by simp)
    have hres : extractCycle g (r :: rest) =
        (cycleWalk g (r :: rest) ((r :: rest).length + 1) [] r).reverse := rfl
    rw [hres]
    refine ⟨?_, by simpa using h₂, ?_, ?_⟩
    · intro x hx
      exact h₁ x (by simpa using hx)
    · rw [List.head?_reverse, List.getLast?_reverse]
      exact h₃.symm
    · rw [List.chain'_reverse]
      show List.Chain' (flip (edgeRel g)) _
      rw [show flip (edgeRel g) = fun a b => b ∈ predsOf g a from rfl]
      exact h₄

/-- A nonempty set of nodes each kept back by a predecessor in the set
witnesses a dependency cycle. -/
theorem not_acyclic_of_closed (g : Graph) (rem : List String) (hne : rem ≠ [])
    (hcl : ∀ n ∈ rem, ∃ p ∈ predsOf g n, p ∈ rem) : ¬ Acyclic g := by
  obtain ⟨_, hlen, hhl, hch⟩ := extractCycle_spec g rem hne hcl
  intro hacyc
  match hP : extractCycle g rem, hlen, hhl, hch with
  | a :: t, hlen, hhl, hch =>
    exact hacyc a (loop_of_closed_chain (a :: t) hch hhl hlen a
      (List.mem_cons_self a t))

/-- On a well-formed acyclic graph the loop emits every registered node. -/
theorem kahnOrder_complete (g : Graph) (hwf : WFGraph g) (hacyc : Acyclic g) :
    ∀ n ∈ nodeOrder g, n ∈ kahnOrder g := by
  by_contra hmiss
  push_neg at hmiss
  obtain ⟨n₀, hn₀, hno₀⟩ := hmiss
  have hrem : n₀ ∈ (nodeOrder g).filter fun n => n ∉ kahnOrder g := by
    rw [List.mem_filter]
    exact ⟨hn₀, by simpa using hno₀⟩
  apply not_acyclic_of_closed g ((nodeOrder g).filter fun n => n ∉ kahnOrder g)
    (fun hnil => by rw [hnil] at hrem; exact absurd hrem (by simp)) ?_ hacyc
  intro n hn
  rw [List.mem_filter] at hn
  obtain ⟨p, hp, hpo⟩ :=
    (kahnOrder_spec g hwf.1).2.2.2 n hn.1 (by simpa using hn.2)
  refine ⟨p, hp, ?_⟩
  rw [List.mem_filter]
  exact ⟨keys_subset_nodeOrder g p (preds_mem_keys_of_wf g hwf n p hp),
    by simpa using hpo⟩

theorem kahnOrder_perm (g : Graph) (hwf : WFGraph g) (hacyc : Acyclic g) :
    (kahnOrder g).Perm (nodeOrder g) := by
  have h₁ : List.Subperm (kahnOrder g) (nodeOrder g) :=
    (kahnOrder_spec g hwf.1).1.subperm fun n hn =>
      (kahnOrder_spec g hwf.1).2.1 n hn
  have h₂ : List.Subperm (nodeOrder g) (kahnOrder g) :=
    (nodup_nodeOrder g).subperm fun n hn => kahnOrder_complete g hwf hacyc n hn
  exact h₁.antisymm h₂

/-- On a well-formed acyclic graph `static_order` succeeds with the Kahn
order. -/
theorem static_order_ok (g : Graph) (hwf : WFGraph g) (hacyc : Acyclic g) :
    static_order g = .ok (kahnOrder g) := by
  rw [static_order]
  simp only [if_pos (kahnOrder_perm g hwf hacyc).length_eq]

theorem indexOf_lt_of_decomp (L l₁ l₂ : List String) (a b : String)
    (hnd : L.Nodup) (hL : L = l₁ ++ b :: l₂) (ha : a ∈ l₁) :
    L.indexOf a < L.indexOf b := by
  subst hL
  rw [List.nodup_append] at hnd
  have hbl₁ : b ∉ l₁ := fun hb => hnd.2.2 hb (List.mem_cons_self b l₂)
  rw [List.indexOf_append_of_mem ha, List.indexOf_append_of_not_mem hbl₁]
  have := List.indexOf_lt_length.mpr ha
  simp only [List.indexOf_cons_self]
  omega

theorem rank_lt_of_edge (g : Graph) (hknd : (keysOf g).Nodup) (a b : String)
    (hb : b ∈ kahnOrder g) (hedge : edgeRel g a b) :
    (kahnOrder g).indexOf a < (kahnOrder g).indexOf b := by
  obtain ⟨l₁, l₂, hL⟩ := List.append_of_mem hb
  have ha : a ∈ l₁ := (kahnOrder_spec g hknd).2.2.1 b l₁ l₂ hL a hedge
  exact indexOf_lt_of_decomp _ l₁ l₂ a b (kahnOrder_spec g hknd).1 hL ha

/-- If the loop emits every registered node, the graph has no cycle. -/
theorem acyclic_of_complete (g : Graph) (hknd : (keysOf g).Nodup)
    (hcomp : ∀ n ∈ nodeOrder g, n ∈ kahnOrder g) : Acyclic g := by
  have hrank : ∀ a b, Relation.TransGen (edgeRel g) a b →
      (kahnOrder g).indexOf a < (kahnOrder g).indexOf b := by
    intro a b h
    induction h with
    | single h =>
      exact rank_lt_of_edge g hknd _ _
        (hcomp _ (keys_subset_nodeOrder g _ (mem_keys_of_mem_preds g _ _ h))) h
    | tail h₁ h₂ ih =>
      exact lt_trans ih (rank_lt_of_edge g hknd _ _
        (hcomp _ (keys_subset_nodeOrder g _ (mem_keys_of_mem_preds g _ _ h₂))) h₂)
  intro n hloop
  exact absurd (hrank n n hloop) (lt_irrefl _)

/-- On a well-formed graph with a dependency cycle, `static_order` raises
the `CycleError`, whose stalled set is nonempty and closed under "some
predecessor is stalled". -/
theorem static_order_error_of_loop (g : Graph) (hwf : WFGraph g) (x : String)
    (hloop : Relation.TransGen (edgeRel g) x x) :
    static_order g =
      .error (extractCycle g ((nodeOrder g).filter fun n => n ∉ kahnOrder g)) ∧
    ((nodeOrder g).filter fun n => n ∉ kahnOrder g) ≠ [] ∧
    (∀ n ∈ (nodeOrder g).filter fun n => n ∉ kahnOrder g,
      ∃ p ∈ predsOf g n,
        p ∈ (nodeOrder g).filter fun n => n ∉ kahnOrder g) := by
  have hnotall : ¬ ∀ n ∈ nodeOrder g, n ∈ kahnOrder g := by
    intro hcomp
    exact acyclic_of_complete g hwf.1 hcomp x hloop
  have hne : ((nodeOrder g).filter fun n => n ∉ kahnOrder g) ≠ [] := by
    intro hnil
    apply hnotall
    intro n hn
    by_contra hno
    have : n ∈ (nodeOrder g).filter fun n => n ∉ kahnOrder g := by
      rw [List.mem_filter]
      exact ⟨hn, by simpa using hno⟩
    rw [hnil] at this
    exact absurd this (by simp)
  have hlen : (kahnOrder g).length ≠ (nodeOrder g).length := by
    intro heq
    apply hnotall
    intro n hn
    by_contra hno
    have hsub : List.Subperm (kahnOrder g) ((nodeOrder g).erase n) := by
      apply (kahnOrder_spec g hwf.1).1.subperm
      intro a ha
      have hne' : a ≠ n := fun h => hno (h ▸ ha)
      exact (List.mem_erase_of_ne hne').mpr ((kahnOrder_spec g hwf.1).2.1 a ha)
    have h₁ := hsub.length_le
    rw [List.length_erase_of_mem hn] at h₁
    have h₂ : 1 ≤ (nodeOrder g).length := by
      cases hcase : nodeOrder g with
      | nil => rw [hcase] at hn; exact absurd hn (by simp)
      | cons a t => simp [hcase]
    omega
  refine ⟨?_, hne, ?_⟩
  · rw [static_order]
    simp only [if_neg hlen]
  · intro n hn
    rw [List.mem_filter] at hn
    obtain ⟨p, hp, hpo⟩ :=
      (kahnOrder_spec g hwf.1).2.2.2 n hn.1 (by simpa using hn.2)
    refine ⟨p, hp, ?_⟩
    rw [List.mem_filter]
    exact ⟨keys_subset_nodeOrder g p (preds_mem_keys_of_wf g hwf n p hp),
      by simpa using hpo⟩

theorem keysOf_dictSet :
    ∀ (g : Graph) (k : String) (v : List String),
      keysOf (dictSet g k v) = addNew (keysOf g) k
  | [], k, v => by simp [keysOf, dictSet, addNew]
  | (k₀, v₀) :: rest, k, v => by
    by_cases hk : k₀ = k
    · subst hk
      rw [dictSet, if_pos rfl]
      have hmem : k₀ ∈ keysOf ((k₀, v₀) :: rest) := by simp [keysOf]
      rw [addNew, if_pos hmem]
      rfl
    · rw [dictSet, if_neg hk]
      have h₁ : keysOf ((k₀, v₀) :: dictSet rest k v) =
          k₀ :: keysOf (dictSet rest k v) := rfl
      rw [h₁, keysOf_dictSet rest k v]
      by_cases hmem : k ∈ keysOf rest
      · rw [addNew, if_pos hmem, addNew,
          if_pos (by simp [keysOf]; exact Or.inr (by simpa [keysOf] using hmem))]
        rfl
      · rw [addNew, if_neg hmem, addNew, if_neg ?_]
        · rfl
        · intro hc
          have hc₂ : k ∈ k₀ :: keysOf rest := hc
          rcases List.mem_cons.mp hc₂ with h | h
          · exact hk h.symm
          · exact hmem h

theorem foldl_dictSet_keys (f : DepModule → List String) :
    ∀ (ms : List DepModule) (g₀ : Graph),
      keysOf (ms.foldl (fun g m => dictSet g m.name (f m)) g₀) =
        (ms.map DepModule.name).foldl addNew (keysOf g₀)
  | [], g₀ => rfl
  | m :: rest, g₀ => by
    rw [List.foldl_cons, List.map_cons, List.foldl_cons,
      foldl_dictSet_keys f rest _, keysOf_dictSet]

theorem builder_keys (f : DepModule → List String) (ms : List DepModule) :
    keysOf (ms.foldl (fun g m => dictSet g m.name (f m)) []) =
      dedup (ms.map DepModule.name) :=
  foldl_dictSet_keys f ms []

theorem dictSet_mem {α : Type} :
    ∀ (g : List (String × α)) (k : String) (v : α) (e : String × α),
      e ∈ dictSet g k v → e ∈ g ∨ e = (k, v)
  | [], k, v, e, h => by
    rw [dictSet] at h
    exact Or.inr (by simpa using h)
  | (k₀, v₀) :: rest, k, v, e, h => by
    rw [dictSet] at h
    by_cases hk : k₀ = k
    · rw [if_pos hk] at h
      rcases List.mem_cons.mp h with rfl | h
      · exact Or.inr (by rw [hk])
      · exact Or.inl (List.mem_cons_of_mem _ h)
    · rw [if_neg hk] at h
      rcases List.mem_cons.mp h with rfl | h
      · exact Or.inl (List.mem_cons_self _ _)
      · rcases dictSet_mem rest k v e h with h | h
        · exact Or.inl (List.mem_cons_of_mem _ h)
        · exact Or.inr h

theorem foldl_dictSet_mem (f : DepModule → List String) :
    ∀ (ms : List DepModule) (g₀ : Graph) (e : String × List String),
      e ∈ ms.foldl (fun g m => dictSet g m.name (f m)) g₀ →
        e ∈ g₀ ∨ ∃ m ∈ ms, e = (m.name, f m)
  | [], g₀, e, h => Or.inl h
  | m :: rest, g₀, e, h => by
    rcases foldl_dictSet_mem f rest _ e h with h | ⟨m', hm', rfl⟩
    · rcases dictSet_mem g₀ m.name (f m) e h with h | rfl
      · exact Or.inl h
      · exact Or.inr ⟨m, List.mem_cons_self m rest, rfl⟩
    · exact Or.inr ⟨m', List.mem_cons_of_mem m hm', rfl⟩

/-- The registry dependency graph is well formed: its keys are exactly the
distinct module names, and every edge target is a module name. -/
theorem registry_wf (ms : List DepModule) :
    WFGraph (build_dependency_graph_registry ms) := by
  constructor
  · rw [build_dependency_graph_registry, builder_keys]
    exact nodup_dedup _
  · intro p hp x hx
    rcases foldl_dictSet_mem _ ms [] p hp with h | ⟨m, hm, rfl⟩
    · exact absurd h (by simp)
    · rw [build_dependency_graph_registry, builder_keys, mem_dedup, List.mem_map]
      have hx₂ := (mem_dedup _ _).mp hx
      rw [registryEdges_mem] at hx₂
      obtain ⟨_, cap, _, hprov⟩ := hx₂
      obtain ⟨m', hm', rfl, _⟩ := (providersOf_mem ms x cap).mp hprov
      exact ⟨m', hm', rfl⟩

/-- The validator dependency graph is well formed. -/
theorem validator_wf (ms : List DepModule) :
    WFGraph (build_dependency_graph_validator ms) := by
  constructor
  · rw [build_dependency_graph_validator, builder_keys]
    exact nodup_dedup _
  · intro p hp x hx
    rcases foldl_dictSet_mem _ ms [] p hp with h | ⟨m, hm, rfl⟩
    · exact absurd h (by simp)
    · rw [build_dependency_graph_validator, builder_keys, mem_dedup, List.mem_map]
      rw [List.mem_flatMap] at hx
      obtain ⟨cap, _, hprov⟩ := hx
      obtain ⟨m', hm', rfl, _⟩ := (providersOf_mem ms x cap).mp hprov
      exact ⟨m', hm', rfl⟩

theorem name_inj :
    ∀ (ms : List DepModule), (ms.map DepModule.name).Nodup →
      ∀ m₁ ∈ ms, ∀ m₂ ∈ ms, m₁.name = m₂.name → m₁ = m₂
  | [], _, m₁, h₁, _, _, _ => absurd h₁ (by simp)
  | a :: t, hnd, m₁, h₁, m₂, h₂, heq => by
    rw [List.map_cons, List.nodup_cons] at hnd
    rcases List.mem_cons.mp h₁ with rfl | h₁'
    · rcases List.mem_cons.mp h₂ with rfl | h₂'
      · rfl
      · exact absurd (List.mem_map.mpr ⟨m₂, h₂', heq.symm⟩) hnd.1
    · rcases List.mem_cons.mp h₂ with rfl | h₂'
      · exact absurd (List.mem_map.mpr ⟨m₁, h₁', heq⟩) hnd.1
      · exact name_inj t hnd.2 m₁ h₁' m₂ h₂' heq

theorem find_name :
    ∀ (ms : List DepModule), (ms.map DepModule.name).Nodup →
      ∀ M ∈ ms, (ms.find? fun m => m.name = M.name) = some M
  | [], _, M, hM => absurd hM (by simp)
  | a :: t, hnd, M, hM => by
    rw [List.map_cons, List.nodup_cons] at hnd
    by_cases ha : a.name = M.name
    · have haM : a = M := by
        rcases List.mem_cons.mp hM with rfl | hM
        · rfl
        · exact absurd (List.mem_map.mpr ⟨M, hM, ha.symm⟩) hnd.1
      rw [List.find?_cons_of_pos _ (by simpa using ha), haM]
    · have hM' : M ∈ t := by
        rcases List.mem_cons.mp hM with rfl | hM
        · exact absurd rfl ha
        · exact hM
      rw [List.find?_cons_of_neg _ (by simpa using ha)]
      exact find_name t hnd.2 M hM'

theorem registry_lookup (ms : List DepModule)
    (hnd : (ms.map DepModule.name).Nodup) (M : DepModule) (hM : M ∈ ms) :
    (build_dependency_graph_registry ms).lookup M.name =
      some (dedup (registryEdges ms M)) :=
  build_graph_lookup _ ms [] hnd M hM

theorem validator_lookup (ms : List DepModule)
    (hnd : (ms.map DepModule.name).Nodup) (M : DepModule) (hM : M ∈ ms) :
    (build_dependency_graph_validator ms).lookup M.name =
      some (M.requires.flatMap fun req => providersOf ms req) :=
  build_graph_lookup _ ms [] hnd M hM

/-- Provider edge of the registry graph: if `A` provides a capability that
`B` requires and the two are distinct, `A.name` is a predecessor of
`B.name`. -/
theorem registry_edge (ms : List DepModule)
    (hnd : (ms.map DepModule.name).Nodup) (A B : DepModule) (cap : String)
    (hA : A ∈ ms) (hB : B ∈ ms) (hprov : cap ∈ A.provides)
    (hreq : cap ∈ B.requires) (hne : A.name ≠ B.name) :
    A.name ∈ predsOf (build_dependency_graph_registry ms) B.name := by
  rw [predsOf, registry_lookup ms hnd B hB, Option.getD_some, mem_dedup,
    registryEdges_mem]
  exact ⟨hne, cap, hreq, (providersOf_mem ms A.name cap).mpr ⟨A, hA, rfl, hprov⟩⟩

theorem validator_edge (ms : List DepModule)
    (hnd : (ms.map DepModule.name).Nodup) (A B : DepModule) (cap : String)
    (hA : A ∈ ms) (hB : B ∈ ms) (hprov : cap ∈ A.provides)
    (hreq : cap ∈ B.requires) :
    A.name ∈ predsOf (build_dependency_graph_validator ms) B.name := by
  rw [predsOf, validator_lookup ms hnd B hB, Option.getD_some, List.mem_flatMap]
  exact ⟨cap, hreq, (providersOf_mem ms A.name cap).mpr ⟨A, hA, rfl, hprov⟩⟩

/-- The registered nodes of the registry graph are exactly the module
names. -/
theorem registry_nodeOrder_mem (ms : List DepModule) (x : String) :
    x ∈ nodeOrder (build_dependency_graph_registry ms) ↔
      x ∈ ms.map DepModule.name := by
  constructor
  · intro h
    rw [mem_nodeOrder] at h
    obtain ⟨p, hp, h⟩ := h
    rcases foldl_dictSet_mem _ ms [] p hp with h₀ | ⟨m, hm, rfl⟩
    · exact absurd h₀ (by simp)
    · rcases h with rfl | h
      · exact List.mem_map.mpr ⟨m, hm, rfl⟩
      · have hx₂ := (mem_dedup _ _).mp h
        rw [registryEdges_mem] at hx₂
        obtain ⟨_, cap, _, hprov⟩ := hx₂
        obtain ⟨m', hm', rfl, _⟩ := (providersOf_mem ms x cap).mp hprov
        exact List.mem_map.mpr ⟨m', hm', rfl⟩
  · intro h
    apply keys_subset_nodeOrder
    rw [build_dependency_graph_registry, builder_keys, mem_dedup]
    exact h

/-- Soundness and completeness of `resolve_dependencies` on an acyclic
dependency graph: it succeeds, returns a permutation of the input modules,
and places every provider before every distinct module requiring one of
its capabilities. -/
theorem resolve_dependencies_spec (modules : List DepModule)
    (hnd : (modules.map DepModule.name).Nodup)
    (hacyc : Acyclic (build_dependency_graph_registry modules)) :
    ∃ sorted, resolve_dependencies modules = some sorted ∧
      sorted.Perm modules ∧
      ∀ A ∈ modules, ∀ B ∈ modules, ∀ cap, cap ∈ A.provides →
        cap ∈ B.requires → A.name ≠ B.name → Before sorted A B := by
  by_cases hempty : modules.isEmpty
  · have hnil : modules = [] := List.isEmpty_iff.mp hempty
    subst hnil
    exact ⟨[], rfl, List.Perm.refl [],
      fun A hA => absurd hA (by simp)⟩
  · have hwf := registry_wf modules
    have hso := static_order_ok (build_dependency_graph_registry modules)
      hwf hacyc
    refine ⟨(kahnOrder (build_dependency_graph_registry modules)).filterMap
      fun n => modules.find? fun m => m.name = n, ?_, ?_, ?_⟩
    · rw [resolve_dependencies, if_neg hempty, hso]
    · have hperm₁ : (kahnOrder (build_dependency_graph_registry modules)).Perm
          (nodeOrder (build_dependency_graph_registry modules)) :=
        kahnOrder_perm _ hwf hacyc
      have hperm₂ : (nodeOrder (build_dependency_graph_registry modules)).Perm
          (modules.map DepModule.name) := by
        refine List.Subperm.antisymm ?_ ?_
        · exact (nodup_nodeOrder _).subperm fun n hn =>
            (registry_nodeOrder_mem modules n).mp hn
        · exact hnd.subperm fun n hn =>
            (registry_nodeOrder_mem modules n).mpr hn
      have hperm := hperm₁.trans hperm₂
      have hstep := hperm.filterMap fun n => modules.find? fun m => m.name = n
      rw [List.filterMap_map] at hstep
      have hcongr : (modules.filterMap
          ((fun n => modules.find? fun m => m.name = n) ∘ DepModule.name)) =
          modules.filterMap fun M => some M := by
        apply List.filterMap_congr
        intro M hM
        exact find_name modules hnd M hM
      rw [hcongr] at hstep
      simpa using hstep
    · intro A hA B hB cap hAp hBr hne
      have hedge : A.name ∈ predsOf (build_dependency_graph_registry modules)
          B.name := registry_edge modules hnd A B cap hA hB hAp hBr hne
      have hBmem : B.name ∈ kahnOrder (build_dependency_graph_registry modules) :=
        kahnOrder_complete _ hwf hacyc B.name
          ((registry_nodeOrder_mem modules B.name).mpr
            (List.mem_map.mpr ⟨B, hB, rfl⟩))
      obtain ⟨l₁, l₂, hL⟩ := List.append_of_mem hBmem
      have hAl₁ : A.name ∈ l₁ :=
        (kahnOrder_spec _ hwf.1).2.2.1 B.name l₁ l₂ hL A.name hedge
      obtain ⟨u, v, hl₁⟩ := List.append_of_mem hAl₁
      have hfa : (modules.find? fun m => m.name = A.name) = some A :=
        find_name modules hnd A hA
      have hfb : (modules.find? fun m => m.name = B.name) = some B :=
        find_name modules hnd B hB
      refine ⟨(u.filterMap fun n => modules.find? fun m => m.name = n),
        (v.filterMap fun n => modules.find? fun m => m.name = n),
        (l₂.filterMap fun n => modules.find? fun m => m.name = n), ?_⟩
      rw [hL, hl₁]
      rw [show (u ++ A.name :: v) ++ B.name :: l₂ =
        u ++ A.name :: (v ++ B.name :: l₂) by simp]
      rw [List.filterMap_append, List.filterMap_cons, hfa,
        List.filterMap_append, List.filterMap_cons, hfb]
      simp

/-- Module A of the spec example: provides `HotGas`, requires nothing. -/
def c1A : DepModule := ⟨"A", [], ["HotGas"]⟩

/-- Module B of the spec example: requires `HotGas`. -/
def c1B : DepModule := ⟨"B", ["HotGas"], []⟩

end DepGraph

open DepGraph in
/-- C1: for every module list with distinct names whose registry dependency
graph is acyclic, `resolve_dependencies` succeeds and returns a permutation
of the modules in which every provider stands before every distinct module
requiring one of its provided capabilities; in particular the two-module
`HotGas` example resolves to `[A, B]` from either input order. -/
theorem C1_resolve_dependencies_topological :
    (∀ (modules : List DepModule),
        (modules.map DepModule.name).Nodup →
        Acyclic (build_dependency_graph_registry modules) →
        ∃ sorted, resolve_dependencies modules = some sorted ∧
          sorted.Perm modules ∧
          ∀ A ∈ modules, ∀ B ∈ modules, ∀ cap, cap ∈ A.provides →
            cap ∈ B.requires → A.name ≠ B.name → Before sorted A B) ∧
    resolve_dependencies [c1A, c1B] = some [c1A, c1B] ∧
    resolve_dependencies [c1B, c1A] = some [c1A, c1B] :=
  ⟨resolve_dependencies_spec, by decide, by decide⟩

namespace DepGraph

/-- Counterexample modules: two independent two-module cycles. -/
def c2c : DepModule := ⟨"modc", ["cd"], ["cc"]⟩

def c2d : DepModule := ⟨"modd", ["cc"], ["cd"]⟩

def c2a : DepModule := ⟨"moda", ["cb"], ["ca"]⟩

def c2b : DepModule := ⟨"modb", ["ca"], ["cb"]⟩

/-- The endpoint of a dependency chain has an incoming edge, hence is a
key of the graph. -/
theorem transGen_mem_keys (g : Graph) (a b : String)
    (h : Relation.TransGen (edgeRel g) a b) : b ∈ keysOf g := by
  cases h with
  | single e => exact mem_keys_of_mem_preds g b a e
  | tail h₁ e => exact mem_keys_of_mem_preds g b _ e

end DepGraph

/-- C2 counterexample: in a module list with two separate two-module
dependency cycles, the pair (`moda`, `modb`) satisfies the claim's premise
(each requires a capability provided only by the other), yet the single
`CycleError` diagnostic reports only the other cycle — the report does not
name both members of the `moda`/`modb` cycle. -/
theorem C2_counterexample :
    ("cb" ∈ c2a.requires ∧ providersOf [c2c, c2d, c2a, c2b] "cb" = ["modb"] ∧
     "ca" ∈ c2b.requires ∧ providersOf [c2c, c2d, c2a, c2b] "ca" = ["moda"] ∧
     c2a ∈ [c2c, c2d, c2a, c2b] ∧ c2b ∈ [c2c, c2d, c2a, c2b] ∧
     c2a.name ≠ c2b.name) ∧
    validate_dependencies [c2c, c2d, c2a, c2b] ["ca", "cb", "cc", "cd"]
      emptyResults false =
      (false, ⟨[⟨"GLOBAL", "ERROR", 3,
        VMsg.circularDependency ["modc", "modd", "modc"]⟩], []⟩) ∧
    "moda" ∉ (["modc", "modd", "modc"] : List String) :=
  ⟨by decide, by decide, by decide⟩

/-- C2 amended: for a module list with distinct names in which modules `A`
and `B` each require a capability provided only by the other, no module
depends on itself, and every dependency cycle runs through `A` and `B`
only, dependency validation raises a `CycleError` recorded as a `GLOBAL`
exit-code-3 diagnostic whose cycle payload names both `A` and `B`, and
registry generation returns no module order at all. -/
theorem C2_cycle_error_amended (modules : List DepModule) (A B : DepModule)
    (capA capB : String)
    (hnd : (modules.map DepModule.name).Nodup)
    (hA : A ∈ modules) (hB : B ∈ modules) (hAB : A.name ≠ B.name)
    (hreqA : capB ∈ A.requires) (hprovB : providersOf modules capB = [B.name])
    (hreqB : capA ∈ B.requires) (hprovA : providersOf modules capA = [A.name])
    (honly : ∀ n, Relation.TransGen
      (edgeRel (build_dependency_graph_validator modules)) n n →
      n = A.name ∨ n = B.name)
    (hself : ∀ n, n ∉ predsOf (build_dependency_graph_validator modules) n) :
    (∃ cyc, static_order (build_dependency_graph_validator modules) =
        .error cyc ∧
      A.name ∈ cyc ∧ B.name ∈ cyc ∧
      ∀ pm results verbose,
        (validate_dependencies modules pm results verbose).1 = false ∧
        (⟨"GLOBAL", "ERROR", 3, VMsg.circularDependency cyc⟩ :
          ValidationError) ∈
          (validate_dependencies modules pm results verbose).2.errors) ∧
    resolve_dependencies modules = none := by
  have hAprov : capA ∈ A.provides := by
    have h₁ : A.name ∈ providersOf modules capA := by
      rw [hprovA]
      exact List.mem_singleton_self _
    obtain ⟨m, hm, hmn, hmp⟩ := (providersOf_mem modules A.name capA).mp h₁
    rwa [name_inj modules hnd m hm A hA hmn] at hmp
  have hBprov : capB ∈ B.provides := by
    have h₁ : B.name ∈ providersOf modules capB := by
      rw [hprovB]
      exact List.mem_singleton_self _
    obtain ⟨m, hm, hmn, hmp⟩ := (providersOf_mem modules B.name capB).mp h₁
    rwa [name_inj modules hnd m hm B hB hmn] at hmp
  have hMne : modules ≠ [] := List.ne_nil_of_mem hA
  have hie : ¬ modules.isEmpty = true := by
    simpa [List.isEmpty_iff] using hMne
  have hloopv : Relation.TransGen
      (edgeRel (build_dependency_graph_validator modules)) A.name A.name := by
    have hedgeAB : A.name ∈ predsOf (build_dependency_graph_validator modules)
        B.name := validator_edge modules hnd A B capA hA hB hAprov hreqB
    have hedgeBA : B.name ∈ predsOf (build_dependency_graph_validator modules)
        A.name := validator_edge modules hnd B A capB hB hA hBprov hreqA
    exact Relation.TransGen.head hedgeAB (Relation.TransGen.single hedgeBA)
  obtain ⟨hso, hne, hcl⟩ := static_order_error_of_loop
    (build_dependency_graph_validator modules) (validator_wf modules)
    A.name hloopv
  obtain ⟨hsub, hlen, hhl, hch⟩ := extractCycle_spec
    (build_dependency_graph_validator modules)
    ((nodeOrder (build_dependency_graph_validator modules)).filter
      fun n => n ∉ kahnOrder (build_dependency_graph_validator modules))
    hne hcl
  have hloops := loop_of_closed_chain _ hch hhl hlen
  have helem : ∀ a ∈ extractCycle (build_dependency_graph_validator modules)
      ((nodeOrder (build_dependency_graph_validator modules)).filter
        fun n => n ∉ kahnOrder (build_dependency_graph_validator modules)),
      a = A.name ∨ a = B.name :=
    fun a ha => honly a (hloops a ha)
  have hboth : A.name ∈ extractCycle (build_dependency_graph_validator modules)
      ((nodeOrder (build_dependency_graph_validator modules)).filter
        fun n => n ∉ kahnOrder (build_dependency_graph_validator modules)) ∧
      B.name ∈ extractCycle (build_dependency_graph_validator modules)
      ((nodeOrder (build_dependency_graph_validator modules)).filter
        fun n => n ∉ kahnOrder (build_dependency_graph_validator modules)) := by
    match hcv : extractCycle (build_dependency_graph_validator modules)
      ((nodeOrder (build_dependency_graph_validator modules)).filter
        fun n => n ∉ kahnOrder (build_dependency_graph_validator modules)),
      hlen, hch, helem with
    | p₀ :: p₁ :: rest, hlen, hch, helem =>
      have he₀₁ : p₀ ∈ predsOf (build_dependency_graph_validator modules) p₁ :=
        (List.chain'_cons.mp hch).1
      have hne01 : p₀ ≠ p₁ := by
        intro he
        exact hself p₁ (he ▸ he₀₁)
      have h₀ := helem p₀ (List.mem_cons_self _ _)
      have h₁ := helem p₁ (List.mem_cons_of_mem _ (List.mem_cons_self _ _))
      rcases h₀ with h₀ | h₀ <;> rcases h₁ with h₁ | h₁
      · exact absurd (h₀.trans h₁.symm) hne01
      · exact ⟨h₀ ▸ List.mem_cons_self _ _,
          h₁ ▸ List.mem_cons_of_mem _ (List.mem_cons_self _ _)⟩
      · exact ⟨h₁ ▸ List.mem_cons_of_mem _ (List.mem_cons_self _ _),
          h₀ ▸ List.mem_cons_self _ _⟩
      · exact absurd (h₀.trans h₁.symm) hne01
  refine ⟨⟨extractCycle (build_dependency_graph_validator modules)
      ((nodeOrder (build_dependency_graph_validator modules)).filter
        fun n => n ∉ kahnOrder (build_dependency_graph_validator modules)),
      hso, hboth.1, hboth.2, ?_⟩, ?_⟩
  · intro pm results verbose
    have hvd : validate_dependencies modules pm results verbose =
        (false, add_error (modules.foldl
          (fun (st : Bool × ValidationResults) m =>
            let r := validate_module_dependencies m m.name pm st.2 verbose
            (st.1 && r.1, r.2)) (true, results)).2 "GLOBAL" 3
          (.circularDependency (extractCycle
            (build_dependency_graph_validator modules)
            ((nodeOrder (build_dependency_graph_validator modules)).filter
              fun n => n ∉ kahnOrder
                (build_dependency_graph_validator modules))))) := by
      rw [validate_dependencies, if_neg hie, hso]
    rw [hvd]
    refine ⟨rfl, ?_⟩
    simp [add_error]
  · have hloopr : Relation.TransGen
        (edgeRel (build_dependency_graph_registry modules)) A.name A.name := by
      have hedgeAB : A.name ∈ predsOf (build_dependency_graph_registry modules)
          B.name := registry_edge modules hnd A B capA hA hB hAprov hreqB hAB
      have hedgeBA : B.name ∈ predsOf (build_dependency_graph_registry modules)
          A.name :=
        registry_edge modules hnd B A capB hB hA hBprov hreqA (Ne.symm hAB)
      exact Relation.TransGen.head hedgeAB (Relation.TransGen.single hedgeBA)
    have hsor := (static_order_error_of_loop
      (build_dependency_graph_registry modules) (registry_wf modules)
      A.name hloopr).1
    rw [resolve_dependencies, if_neg hie, hsor]

/-- Witness: the two-module cycle instance, where the recorded cycle names
both modules and the registry resolver returns no order. -/
theorem C2_cycle_error_amended_witness :
    (∃ cyc, static_order (build_dependency_graph_validator [c2a, c2b]) =
        .error cyc ∧
      c2a.name ∈ cyc ∧ c2b.name ∈ cyc ∧
      ∀ pm results verbose,
        (validate_dependencies [c2a, c2b] pm results verbose).1 = false ∧
        (⟨"GLOBAL", "ERROR", 3, VMsg.circularDependency cyc⟩ :
          ValidationError) ∈
          (validate_dependencies [c2a, c2b] pm results verbose).2.errors) ∧
    resolve_dependencies [c2a, c2b] = none :=
  C2_cycle_error_amended [c2a, c2b] c2a c2b "ca" "cb" (by decide)
    (by decide) (by decide) (by decide) (by decide) (by decide) (by decide)
    (by decide)
    (fun n h => by
      have hk := transGen_mem_keys _ _ _ h
      have hkeys : keysOf (build_dependency_graph_validator [c2a, c2b]) =
          ["moda", "modb"] := rfl
      rw [hkeys] at hk
      simpa [c2a, c2b] using hk)
    (fun n hn => by
      have hk := mem_keys_of_mem_preds _ n n hn
      have hkeys : keysOf (build_dependency_graph_validator [c2a, c2b]) =
          ["moda", "modb"] := rfl
      rw [hkeys] at hk
      rcases List.mem_cons.mp hk with rfl | hk
      · exact absurd hn (by decide)
      · rcases List.mem_cons.mp hk with rfl | hk
        · exact absurd hn (by decide)
        · exact absurd hk (by simp))
